import Mathlib

/-!
# Verification of `fix_test_error_handling.py`

A shallow embedding of the maintenance script `fix_test_error_handling.py`.
The script applies two regular-expression substitutions (`re.sub`) to the
content of every `.rs` file in a `tests` directory, writes a file back only
when its content changed, and prints a per-file line plus a summary.

File content is modelled as `List Char`.  Both regexes have the shape

  `(\s+) LIT (\s* LIT | [^}]+ LIT)*`

i.e. every quantifier (`\s+`, `\s*`, `[^}]+`) is greedy and is immediately
followed by a literal whose first character lies outside the quantifier's
character class (`\s+`/`\s*` are each followed by a literal starting with a
non-whitespace character, and the single `[^}]+` is followed by the literal
`}`).  Under Python's backtracking semantics a greedy class-quantifier
followed by such a literal admits exactly one viable extent — the maximal
run — because giving back any character would place a character of the class
where the literal's first character is required.  Hence Python's matcher is
equivalent, on these two patterns, to the deterministic maximal-munch
matcher defined below.  `re.MULTILINE` and `re.DOTALL` are immaterial: the
patterns contain no anchors and no unescaped `.`.

`re.sub` semantics: scan start positions left to right; at each position try
to match; on success emit the replacement (with `\1` bound to group 1, the
leading whitespace run) and resume after the match; otherwise emit the
character and advance by one.  Matches are never empty (`\s+` is mandatory),
so the scan below advances at every step.
-/

namespace SzFix

/-- Python regex `\s` on `str`: the exact set of code points it matches
(ASCII `[ \t\n\r\f\v]`, `\x1c`-`\x1f`, and the Unicode space characters). -/
def isWS (c : Char) : Bool :=
  let n := c.toNat
  (9 ≤ n && n ≤ 13) || (28 ≤ n && n ≤ 32) || n == 133 || n == 160 ||
  n == 0x1680 || (0x2000 ≤ n && n ≤ 0x200a) || n == 0x2028 || n == 0x2029 ||
  n == 0x202f || n == 0x205f || n == 0x3000

/-- The character `}` (written via its code point to keep brace characters
out of string literals). -/
def rbrace : Char := Char.ofNat 125

/-- The character class `[^}]`. -/
def notRB (c : Char) : Bool := !(c == rbrace)

/-- One element of a compiled pattern: a literal, a greedy `\s*`, a greedy
`[^}]+`, or a greedy `[^}]*` (the last never occurs in the two source
patterns; it only arises as the residue of a partially consumed `[^}]+`
in the boundary analysis further below). -/
inductive RItem where
  | lit : List Char → RItem
  | wsStar : RItem
  | nbPlus : RItem
  | nbStar : RItem
deriving DecidableEq

/-- Match a literal: `dropLit l s` returns `some rest` iff `l` is a prefix
of `s`, with `rest` the remainder. -/
def dropLit : List Char → List Char → Option (List Char)
  | [], s => some s
  | _ :: _, [] => none
  | a :: as, b :: bs => if a == b then dropLit as bs else none

/-- The deterministic maximal-munch matcher for an item sequence, anchored
at the start of `s`; returns the remainder after the match. -/
def matchItems : List RItem → List Char → Option (List Char)
  | [], s => some s
  | RItem.lit l :: is, s =>
    match dropLit l s with
    | some s2 => matchItems is s2
    | none => none
  | RItem.wsStar :: is, s => matchItems is (s.dropWhile isWS)
  | RItem.nbPlus :: is, s =>
    match s with
    | [] => none
    | c :: cs => if notRB c then matchItems is ((c :: cs).dropWhile notRB) else none
  | RItem.nbStar :: is, s => matchItems is (s.dropWhile notRB)

/-- Anchored match of `(\s+)` followed by `items`: returns the captured
group 1 (the maximal leading whitespace run, mandatory non-empty) and the
remainder after the whole match. -/
def matchHead (items : List RItem) (s : List Char) : Option (List Char × List Char) :=
  match s with
  | [] => none
  | c :: cs =>
    if isWS c then
      match matchItems items ((c :: cs).dropWhile isWS) with
      | some rest => some ((c :: cs).takeWhile isWS, rest)
      | none => none
    else none

/-- Literal item from a string. -/
def L (s : String) : RItem := RItem.lit s.toList

/-- `old_pattern` from the source, compiled: the problematic
`match env_result` error-handling shape.  (`\x7b`/`\x7d` are `{`/`}`.) -/
def old_pattern : List RItem :=
  [L "match env_result \x7b", RItem.wsStar,
   L "Ok(env) => \x7b", RItem.nbPlus, L "\x7d", RItem.wsStar,
   L "Err(e) => \x7b", RItem.wsStar,
   L "match e \x7b", RItem.wsStar,
   L "SzError::Configuration \x7b .. \x7d => \x7b", RItem.wsStar,
   L "// Expected for singleton architecture", RItem.wsStar,
   L "\x7d", RItem.wsStar,
   L "_ => \x7b", RItem.wsStar,
   L "eprintln!(\"Environment initialization failed (may be acceptable): \x7b:?\x7d\", e);",
   RItem.wsStar, L "\x7d", RItem.wsStar, L "\x7d", RItem.wsStar, L "\x7d",
   RItem.wsStar, L "\x7d"]

/-- `engine_old_pattern` from the source, compiled: the parallel
`match engine_result` shape. -/
def engine_old_pattern : List RItem :=
  [L "match engine_result \x7b", RItem.wsStar,
   L "Ok(engine) => \x7b", RItem.nbPlus, L "\x7d", RItem.wsStar,
   L "Err(e) => \x7b", RItem.wsStar,
   L "match e \x7b", RItem.wsStar,
   L "SzError::Configuration \x7b .. \x7d => \x7b", RItem.wsStar,
   L "// Expected for singleton architecture", RItem.wsStar,
   L "\x7d", RItem.wsStar,
   L "_ => \x7b", RItem.wsStar,
   L "eprintln!(\"Engine setup failed (may be acceptable): \x7b:?\x7d\", e);",
   RItem.wsStar, L "\x7d", RItem.wsStar, L "\x7d", RItem.wsStar, L "\x7d",
   RItem.wsStar, L "\x7d"]

/-- Attempt rule A's pattern at the start of `s`. -/
def matchA (s : List Char) : Option (List Char × List Char) := matchHead old_pattern s

/-- Attempt rule B's pattern at the start of `s`. -/
def matchB (s : List Char) : Option (List Char × List Char) := matchHead engine_old_pattern s

/-- `new_pattern` from the source, as the list of its lines with the leading
`\1` group reference stripped; each line of the replacement is the captured
group followed by the line's text. -/
def new_pattern : List (List Char) :=
  ["match env_result \x7b".toList,
   "    Ok(env) => \x7b".toList,
   "        // Test that environment is available for testing".toList,
   "        eprintln!(\"Environment available for testing\");".toList,
   "".toList,
   "        // Can test read-only operations like:".toList,
   "        let _is_destroyed = env.is_destroyed();".toList,
   "        let _active_config_result = env.get_active_config_id();".toList,
   "    \x7d".toList,
   "    Err(e) => \x7b".toList,
   "        // With proper synchronization, initialization should succeed".toList,
   "        // Any initialization failure is now a test failure".toList,
   "        return Err(e);".toList,
   "    \x7d".toList,
   "\x7d".toList]

/-- `engine_new_pattern` from the source, same convention. -/
def engine_new_pattern : List (List Char) :=
  ["match engine_result \x7b".toList,
   "    Ok(engine) => \x7b".toList,
   "        // Engine is available for testing".toList,
   "        eprintln!(\"Engine available for testing\");".toList,
   "    \x7d".toList,
   "    Err(e) => \x7b".toList,
   "        // With proper synchronization, engine setup should succeed".toList,
   "        // Any engine setup failure is now a test failure".toList,
   "        return Err(e);".toList,
   "    \x7d".toList,
   "\x7d".toList]

/-- Instantiate a replacement template: every line is `cap ++ line`, lines
joined by a newline (this is Python's substitution of `\1` by group 1). -/
def expandTmpl (lines : List (List Char)) (cap : List Char) : List Char :=
  match lines with
  | [] => []
  | [l] => cap ++ l
  | l :: ls => cap ++ l ++ '\n' :: expandTmpl ls cap

/-- Rule A's replacement text for a captured group `cap`. -/
def expandA (cap : List Char) : List Char := expandTmpl new_pattern cap

/-- Rule B's replacement text for a captured group `cap`. -/
def expandB (cap : List Char) : List Char := expandTmpl engine_new_pattern cap

/-- The `re.sub` scan, fuel-indexed (the fuel is only a termination device:
every match consumes at least one character, so `s.length` fuel suffices). -/
def reSubF (m : List Char → Option (List Char × List Char))
    (r : List Char → List Char) : Nat → List Char → List Char
  | 0, s => s
  | _ + 1, [] => []
  | f + 1, c :: cs =>
    match m (c :: cs) with
    | some (cap, rest) => r cap ++ reSubF m r f rest
    | none => c :: reSubF m r f cs

/-- `re.sub m r s`: replace every (leftmost, non-overlapping) match. -/
def reSub (m : List Char → Option (List Char × List Char))
    (r : List Char → List Char) (s : List Char) : List Char :=
  reSubF m r s.length s

/-- First substitution of `fix_test_file`:
`re.sub(old_pattern, new_pattern, content, ...)`. -/
def subA (s : List Char) : List Char := reSub matchA expandA s

/-- Second substitution of `fix_test_file`:
`re.sub(engine_old_pattern, engine_new_pattern, content, ...)`. -/
def subB (s : List Char) : List Char := reSub matchB expandB s

/-- The full content transformation of `fix_test_file`: rule A then rule B. -/
def transform (s : List Char) : List Char := subB (subA s)

/-- `fix_test_file`, content-level: returns the file's on-disk content after
the call together with the returned flag (`True` iff the file was
rewritten).  The script writes back exactly when the transformed content
differs from the original. -/
def fix_test_file (content : List Char) : List Char × Bool :=
  let c := transform content
  if c = content then (content, false) else (c, true)

/-- The per-file console line printed by `fix_test_file`. -/
def fixMessage (path : String) (changed : Bool) : String :=
  if changed then "Fixed: " ++ path else "No changes needed: " ++ path

/-- The loop body of `main` over a directory listing (filename together with
that file's content): returns the console lines printed by the
`fix_test_file` calls, the final `fixed_count`, and the directory contents
after the run. -/
def processFiles : List (String × List Char) → List String × Nat × List (String × List Char)
  | [] => ([], 0, [])
  | (name, content) :: rest =>
    let r := processFiles rest
    if name.endsWith ".rs" then
      let f := fix_test_file content
      (fixMessage ("tests/" ++ name) f.2 :: r.1,
       (if f.2 then 1 else 0) + r.2.1,
       (name, f.1) :: r.2.2)
    else (r.1, r.2.1, (name, content) :: r.2.2)

/-- `main`: process the listing of the `tests` directory, then print a blank
line followed by the summary (`print` of a string starting with `"\n"`). -/
def mainRun (files : List (String × List Char)) :
    List String × Nat × List (String × List Char) :=
  let r := processFiles files
  (r.1 ++ ["", "Fixed " ++ toString r.2.1 ++ " test files"], r.2.1, r.2.2)

/-- Every character of `l` is whitespace. -/
def allWS (l : List Char) : Bool := l.all isWS

/-- Characters of `p` all lie outside the whitespace class. -/
def wsFree (p : List Char) : Bool := p.all (fun c => !isWS c)

/-- `occursIn p s`: `p` occurs as a contiguous substring of `s`. -/
def occursIn (p : List Char) : List Char → Bool
  | [] => p.isEmpty
  | c :: cs => (dropLit p (c :: cs)).isSome || occursIn p cs

/-- A matcher consumes at least one character on success (used only for the
fuel bookkeeping of `reSubF`). -/
def Shrinks (m : List Char → Option (List Char × List Char)) : Prop :=
  ∀ c cs cap rest, m (c :: cs) = some (cap, rest) → rest.length ≤ cs.length

/-- A matcher consumes a non-empty prefix on success. -/
def Consumes (m : List Char → Option (List Char × List Char)) : Prop :=
  ∀ c cs cap rest, m (c :: cs) = some (cap, rest) → ∃ w, w ≠ [] ∧ c :: cs = w ++ rest

/-- The matcher fails at every position (suffix) of `s`: `s` contains no
occurrence at all of the pattern. -/
def noMatchAll (m : List Char → Option (List Char × List Char)) : List Char → Bool
  | [] => true
  | c :: cs => (m (c :: cs)).isNone && noMatchAll m cs

/-- Split a character list at newline characters (the lines of a text). -/
def splitNL : List Char → List (List Char)
  | [] => [[]]
  | c :: cs =>
    if c = '\n' then [] :: splitNL cs
    else
      match splitNL cs with
      | [] => [[c]]
      | l :: ls => (c :: l) :: ls

/-- An execution trace of one `re.sub` scan: the input decomposes into kept
characters (positions where the pattern does not match, copied verbatim and
in order to the output) and matched spans (replaced by the instantiated
template).  This is the precise sense in which the substitution alters
nothing outside the matched spans. -/
inductive SubTrace (m : List Char → Option (List Char × List Char))
    (r : List Char → List Char) : List Char → List Char → Prop
  | nil : SubTrace m r [] []
  | keep (c : Char) (s t : List Char) : m (c :: s) = none → SubTrace m r s t →
      SubTrace m r (c :: s) (c :: t)
  | subst (w cap s t : List Char) : w ≠ [] → m (w ++ s) = some (cap, s) →
      SubTrace m r s t → SubTrace m r (w ++ s) (r cap ++ t)

/-- A concrete file content holding exactly one occurrence of rule A's
pattern, whose leading-whitespace capture is the two characters
`"\n "` (newline, space) — the typical capture for an occurrence that
starts on its own line. -/
def sampleA : List Char :=
  ("\n match env_result \x7b Ok(env) => \x7bx\x7d Err(e) => \x7b match e \x7b " ++
   "SzError::Configuration \x7b .. \x7d => \x7b // Expected for singleton architecture " ++
   "\x7d _ => \x7b eprintln!(\"Environment initialization failed (may be acceptable): " ++
   "\x7b:?\x7d\", e); \x7d \x7d \x7d \x7d").toList

/-- The same occurrence text with the mandatory leading whitespace removed
and its first character split off (so the occurrence starts at the very
first byte). -/
def sampleTail : List Char :=
  ("atch env_result \x7b Ok(env) => \x7bx\x7d Err(e) => \x7b match e \x7b " ++
   "SzError::Configuration \x7b .. \x7d => \x7b // Expected for singleton architecture " ++
   "\x7d _ => \x7b eprintln!(\"Environment initialization failed (may be acceptable): " ++
   "\x7b:?\x7d\", e); \x7d \x7d \x7d \x7d").toList

/-- A concrete file content with zero occurrences of either pattern. -/
def sampleClean : List Char :=
  "fn test_environment() \x7b let env_result = get_env(); \x7d\n".toList

/-- A rule-A occurrence whose leading-whitespace capture is exactly eight
spaces (no newline). -/
def sampleA8 : List Char :=
  ("        match env_result \x7b Ok(env) => \x7bx\x7d Err(e) => \x7b match e \x7b " ++
   "SzError::Configuration \x7b .. \x7d => \x7b // Expected for singleton architecture " ++
   "\x7d _ => \x7b eprintln!(\"Environment initialization failed (may be acceptable): " ++
   "\x7b:?\x7d\", e); \x7d \x7d \x7d \x7d").toList

/-! ## Symbolic strings

To settle the global claims (idempotence of the transform, commutation of
the two rules) one must show that no match attempt of either pattern can
succeed when it starts inside, or crosses into, a replacement block or a
matched span.  Replacement blocks and matched spans are *families* of
strings: concrete chunks interleaved with arbitrary whitespace runs (the
captured groups and the `\s*` gaps) and an arbitrary `}`-free body (the
`[^}]+` group).  `Seg` describes such a family symbolically and `symMatchF`
is a conservative checker: when it returns `true`, every match attempt of
the given item state against every instance of the family (followed by
anything at all) fails.  Its soundness is proved below; the finitely many
required instances are then discharged by `decide`. -/

/-- One symbolic segment: a concrete chunk, a non-empty whitespace run, a
possibly-empty whitespace run, a non-empty `}`-free run, or a
possibly-empty `}`-free run. -/
inductive Seg where
  | conc : List Char → Seg
  | gap : Seg
  | gap0 : Seg
  | blob : Seg
  | blob0 : Seg
deriving DecidableEq

/-- `Renders ss r`: the concrete string `r` is an instance of the symbolic
string `ss` (each gap/blob segment instantiated independently). -/
inductive Renders : List Seg → List Char → Prop
  | nil : Renders [] []
  | conc (c : List Char) (ss : List Seg) (r : List Char) :
      Renders ss r → Renders (Seg.conc c :: ss) (c ++ r)
  | gap (g : List Char) (ss : List Seg) (r : List Char) :
      g ≠ [] → allWS g = true → Renders ss r → Renders (Seg.gap :: ss) (g ++ r)
  | gap0 (g : List Char) (ss : List Seg) (r : List Char) :
      allWS g = true → Renders ss r → Renders (Seg.gap0 :: ss) (g ++ r)
  | blob (g : List Char) (ss : List Seg) (r : List Char) :
      g ≠ [] → g.all notRB = true → Renders ss r → Renders (Seg.blob :: ss) (g ++ r)
  | blob0 (g : List Char) (ss : List Seg) (r : List Char) :
      g.all notRB = true → Renders ss r → Renders (Seg.blob0 :: ss) (g ++ r)

/-- The symbolic death checker: `symMatchF f σ ss = true` certifies that
the matcher in state `σ` fails on `r ++ z` for every instance `r` of `ss`
and every continuation `z` (soundness proved in `symMatchF_sound`).  The
fuel `f` only forces termination; on exhaustion the checker answers
`false`, which is always sound. -/
def symMatchF : Nat → List RItem → List Seg → Bool
  | 0, _, _ => false
  | f + 1, σ, ss =>
    match σ, ss with
    | _, [] => false
    | [], _ => false
    | RItem.lit [] :: is, ss => symMatchF f is ss
    | RItem.lit (a :: as) :: is, Seg.conc [] :: ss =>
      symMatchF f (RItem.lit (a :: as) :: is) ss
    | RItem.lit (a :: as) :: is, Seg.conc (b :: bs) :: ss =>
      if a == b then symMatchF f (RItem.lit as :: is) (Seg.conc bs :: ss) else true
    | RItem.lit (a :: as) :: is, Seg.gap :: ss =>
      if isWS a then symMatchF f (RItem.lit as :: is) (Seg.gap0 :: ss) else true
    | RItem.lit (a :: as) :: is, Seg.gap0 :: ss =>
      if isWS a then
        symMatchF f (RItem.lit as :: is) (Seg.gap0 :: ss) &&
          symMatchF f (RItem.lit (a :: as) :: is) ss
      else symMatchF f (RItem.lit (a :: as) :: is) ss
    | RItem.lit (a :: as) :: is, Seg.blob :: ss =>
      if a == rbrace then true
      else symMatchF f (RItem.lit as :: is) (Seg.blob0 :: ss)
    | RItem.lit (a :: as) :: is, Seg.blob0 :: ss =>
      if a == rbrace then symMatchF f (RItem.lit (a :: as) :: is) ss
      else
        symMatchF f (RItem.lit as :: is) (Seg.blob0 :: ss) &&
          symMatchF f (RItem.lit (a :: as) :: is) ss
    | RItem.wsStar :: is, Seg.conc [] :: ss => symMatchF f (RItem.wsStar :: is) ss
    | RItem.wsStar :: is, Seg.conc (b :: bs) :: ss =>
      if isWS b then symMatchF f (RItem.wsStar :: is) (Seg.conc bs :: ss)
      else symMatchF f is (Seg.conc (b :: bs) :: ss)
    | RItem.wsStar :: is, Seg.gap :: ss => symMatchF f (RItem.wsStar :: is) ss
    | RItem.wsStar :: is, Seg.gap0 :: ss => symMatchF f (RItem.wsStar :: is) ss
    | RItem.wsStar :: is, Seg.blob :: ss =>
      symMatchF f is (Seg.blob0 :: ss) && symMatchF f (RItem.wsStar :: is) ss
    | RItem.wsStar :: is, Seg.blob0 :: ss =>
      symMatchF f is (Seg.blob0 :: ss) && symMatchF f (RItem.wsStar :: is) ss
    | RItem.nbPlus :: is, Seg.conc [] :: ss => symMatchF f (RItem.nbPlus :: is) ss
    | RItem.nbPlus :: is, Seg.conc (b :: bs) :: ss =>
      if b == rbrace then true else symMatchF f (RItem.nbStar :: is) (Seg.conc bs :: ss)
    | RItem.nbPlus :: is, Seg.gap :: ss => symMatchF f (RItem.nbStar :: is) ss
    | RItem.nbPlus :: is, Seg.gap0 :: ss =>
      symMatchF f (RItem.nbPlus :: is) ss && symMatchF f (RItem.nbStar :: is) ss
    | RItem.nbPlus :: is, Seg.blob :: ss => symMatchF f (RItem.nbStar :: is) ss
    | RItem.nbPlus :: is, Seg.blob0 :: ss =>
      symMatchF f (RItem.nbPlus :: is) ss && symMatchF f (RItem.nbStar :: is) ss
    | RItem.nbStar :: is, Seg.conc [] :: ss => symMatchF f (RItem.nbStar :: is) ss
    | RItem.nbStar :: is, Seg.conc (b :: bs) :: ss =>
      if b == rbrace then symMatchF f is (Seg.conc (b :: bs) :: ss)
      else symMatchF f (RItem.nbStar :: is) (Seg.conc bs :: ss)
    | RItem.nbStar :: is, Seg.gap :: ss => symMatchF f (RItem.nbStar :: is) ss
    | RItem.nbStar :: is, Seg.gap0 :: ss => symMatchF f (RItem.nbStar :: is) ss
    | RItem.nbStar :: is, Seg.blob :: ss => symMatchF f (RItem.nbStar :: is) ss
    | RItem.nbStar :: is, Seg.blob0 :: ss => symMatchF f (RItem.nbStar :: is) ss

/-- Enough fuel for every check needed below. -/
def engineFuel : Nat := 5000

/-- The symbolic shape of an instantiated replacement template: each line is
a fresh whitespace run (the `\1` insertion) followed by the line's concrete
text (with its newline). -/
def segsOfTmpl : List (List Char) → List Seg
  | [] => []
  | [l] => [Seg.gap, Seg.conc l]
  | l :: ls => Seg.gap :: Seg.conc (l ++ ['\n']) :: segsOfTmpl ls

/-- Symbolic shape of rule A's replacement block. -/
def segsRA : List Seg := segsOfTmpl new_pattern

/-- Symbolic shape of rule B's replacement block. -/
def segsRB : List Seg := segsOfTmpl engine_new_pattern

/-- Symbolic shape of a full match span of one of the two patterns
(parameterised by its three distinguishing literals). -/
def spanSegs (headLit okLit eprLit : List Char) : List Seg :=
  [Seg.gap, Seg.conc headLit, Seg.gap0, Seg.conc okLit, Seg.blob, Seg.conc [rbrace],
   Seg.gap0, Seg.conc "Err(e) => \x7b".toList,
   Seg.gap0, Seg.conc "match e \x7b".toList,
   Seg.gap0, Seg.conc "SzError::Configuration \x7b .. \x7d => \x7b".toList,
   Seg.gap0, Seg.conc "// Expected for singleton architecture".toList,
   Seg.gap0, Seg.conc [rbrace], Seg.gap0, Seg.conc "_ => \x7b".toList,
   Seg.gap0, Seg.conc eprLit,
   Seg.gap0, Seg.conc [rbrace], Seg.gap0, Seg.conc [rbrace],
   Seg.gap0, Seg.conc [rbrace], Seg.gap0, Seg.conc [rbrace]]

/-- Symbolic shape of a rule-A match span. -/
def spanSegsA : List Seg :=
  spanSegs "match env_result \x7b".toList "Ok(env) => \x7b".toList
    "eprintln!(\"Environment initialization failed (may be acceptable): \x7b:?\x7d\", e);".toList

/-- Symbolic shape of a rule-B match span. -/
def spanSegsB : List Seg :=
  spanSegs "match engine_result \x7b".toList "Ok(engine) => \x7b".toList
    "eprintln!(\"Engine setup failed (may be acceptable): \x7b:?\x7d\", e);".toList

/-! ## Matcher states at a boundary -/

/-- All states `lit r :: is` with `r` a non-empty tail of the literal `l`. -/
def litTails (l : List Char) (is : List RItem) : List (List RItem) :=
  (l.tails.filter (fun t => !t.isEmpty)).map (fun t => RItem.lit t :: is)

/-- Every state the matcher can be in when a run over an item list crosses a
string boundary: a (non-empty) suffix of the item list, possibly with its
head literal partially consumed, and `nbPlus` weakened to `nbStar` once a
character of the class has been consumed. -/
def allStates : List RItem → List (List RItem)
  | [] => []
  | RItem.lit l :: is => litTails l is ++ allStates is
  | RItem.wsStar :: is => (RItem.wsStar :: is) :: allStates is
  | RItem.nbPlus :: is => (RItem.nbPlus :: is) :: (RItem.nbStar :: is) :: allStates is
  | RItem.nbStar :: is => (RItem.nbStar :: is) :: allStates is

/-- `allStates` together with the initial state `\s* ++ p` (the anchored
`\s+` head merges into a `\s*` resume after at least one whitespace
character has been read). -/
def hstates (p : List RItem) : List (List RItem) := (RItem.wsStar :: p) :: allStates p

/-- The proposition counterpart of `hstates` membership, closed under the
matcher's single steps. -/
inductive StOK (p : List RItem) : List RItem → Prop
  | top : StOK p (RItem.wsStar :: p)
  | sfx (is : List RItem) : is <:+ p → StOK p is
  | litPart (l r : List Char) (is : List RItem) :
      (RItem.lit l :: is) <:+ p → r <:+ l → r ≠ [] → StOK p (RItem.lit r :: is)
  | nbs (is : List RItem) : (RItem.nbPlus :: is) <:+ p → StOK p (RItem.nbStar :: is)

/-- All symbolic suffixes of a symbolic string: every instance's non-empty
suffix is an instance of one of them. -/
def segTails : List Seg → List (List Seg)
  | [] => []
  | Seg.conc c :: ss =>
    (c.tails.filter (fun t => !t.isEmpty)).map (fun t => Seg.conc t :: ss) ++ segTails ss
  | Seg.gap :: ss => (Seg.gap0 :: ss) :: segTails ss
  | Seg.gap0 :: ss => (Seg.gap0 :: ss) :: segTails ss
  | Seg.blob :: ss => (Seg.blob :: ss) :: segTails ss
  | Seg.blob0 :: ss => (Seg.blob0 :: ss) :: segTails ss

/-- Two literals conflict: they disagree at some position within their
common length (so they cannot both be prefixes of one string). -/
def litConflict : List Char → List Char → Bool
  | a :: as, b :: bs => !(a == b) || litConflict as bs
  | _, _ => false

/-- Translate an item list to its symbolic-segment shape. -/
def segsOfItems : List RItem → List Seg
  | [] => []
  | RItem.lit l :: is => Seg.conc l :: segsOfItems is
  | RItem.wsStar :: is => Seg.gap0 :: segsOfItems is
  | RItem.nbPlus :: is => Seg.blob :: segsOfItems is
  | RItem.nbStar :: is => Seg.blob0 :: segsOfItems is

/-- A well-formed chain: literals are non-empty, every `\s*` is followed by
a literal starting with a non-whitespace character, and every `[^}]+` is
followed by a literal starting with `}` (true of both source patterns).
Under this discipline the maximal-munch run of a successful match is fully
determined by the consumed span, independently of what follows it. -/
def okChain : List RItem → Bool
  | [] => true
  | RItem.lit l :: is => !l.isEmpty && okChain is
  | RItem.wsStar :: RItem.lit (a :: as) :: is =>
    !isWS a && okChain (RItem.lit (a :: as) :: is)
  | RItem.nbPlus :: RItem.lit (a :: as) :: is =>
    (a == rbrace) && okChain (RItem.lit (a :: as) :: is)
  | _ => false

/-- A pattern has no empty literal (true of both source patterns). -/
def GoodPat (p : List RItem) : Prop := ∀ l, RItem.lit l ∈ p → l ≠ []

/-- The pattern matches at no position (no suffix) of `t`. -/
def AllPos (m : List Char → Option (List Char × List Char)) (t : List Char) : Prop :=
  ∀ v, v <:+ t → m v = none

/-! ## Basic matcher lemmas -/

theorem dropLit_split : ∀ (l s s2 : List Char), dropLit l s = some s2 → s = l ++ s2 := by
  intro l
  induction l with
  | nil => intro s s2 h; simp [dropLit] at h; simp [h]
  | cons a as ih =>
    intro s s2 h
    cases s with
    | nil => simp [dropLit] at h
    | cons b bs =>
      simp only [dropLit] at h
      by_cases hab : a == b
      · rw [if_pos hab] at h
        have := ih bs s2 h
        simp only [List.cons_append]
        rw [← this]
        have : a = b := by exact eq_of_beq hab
        rw [this]
      · rw [if_neg hab] at h; exact absurd h (by simp)

theorem matchItems_nil_items (s : List Char) : matchItems [] s = some s := rfl

theorem matchItems_lit (l : List Char) (is : List RItem) (s : List Char) :
    matchItems (RItem.lit l :: is) s =
      match dropLit l s with
      | some s2 => matchItems is s2
      | none => none := rfl

theorem matchItems_ws (is : List RItem) (s : List Char) :
    matchItems (RItem.wsStar :: is) s = matchItems is (s.dropWhile isWS) := rfl

theorem matchItems_nbP_nil (is : List RItem) : matchItems (RItem.nbPlus :: is) [] = none := rfl

theorem matchItems_nbP (is : List RItem) (c : Char) (cs : List Char) :
    matchItems (RItem.nbPlus :: is) (c :: cs) =
      if notRB c then matchItems is ((c :: cs).dropWhile notRB) else none := rfl

theorem matchItems_nbS (is : List RItem) (s : List Char) :
    matchItems (RItem.nbStar :: is) s = matchItems is (s.dropWhile notRB) := rfl

theorem matchItems_suffix : ∀ (is : List RItem) (s r : List Char),
    matchItems is s = some r → ∃ w, s = w ++ r := by
  intro is
  induction is with
  | nil =>
    intro s r h
    simp only [matchItems, Option.some.injEq] at h
    exact ⟨[], by simp [h]⟩
  | cons it is ih =>
    intro s r h
    cases it with
    | lit l =>
      simp only [matchItems] at h
      cases hd : dropLit l s with
      | none => rw [hd] at h; exact absurd h (by simp)
      | some s2 =>
        rw [hd] at h
        obtain ⟨w, hw⟩ := ih s2 r h
        exact ⟨l ++ w, by rw [dropLit_split l s s2 hd, hw, List.append_assoc]⟩
    | wsStar =>
      simp only [matchItems] at h
      obtain ⟨w, hw⟩ := ih _ r h
      exact ⟨s.takeWhile isWS ++ w, by
        conv_lhs => rw [← List.takeWhile_append_dropWhile (p := isWS) (l := s)]
        rw [hw, List.append_assoc]⟩
    | nbPlus =>
      cases s with
      | nil => exact absurd h (by simp [matchItems_nbP_nil])
      | cons c cs =>
        rw [matchItems_nbP] at h
        by_cases hc : notRB c
        · rw [if_pos hc] at h
          obtain ⟨w, hw⟩ := ih _ r h
          exact ⟨(c :: cs).takeWhile notRB ++ w, by
            conv_lhs => rw [← List.takeWhile_append_dropWhile (p := notRB) (l := c :: cs)]
            rw [hw, List.append_assoc]⟩
        · rw [if_neg hc] at h; exact absurd h (by simp)
    | nbStar =>
      simp only [matchItems] at h
      obtain ⟨w, hw⟩ := ih _ r h
      exact ⟨s.takeWhile notRB ++ w, by
        conv_lhs => rw [← List.takeWhile_append_dropWhile (p := notRB) (l := s)]
        rw [hw, List.append_assoc]⟩

theorem matchHead_consumes {items : List RItem} {c : Char} {cs cap rest : List Char}
    (h : matchHead items (c :: cs) = some (cap, rest)) :
    ∃ w, w ≠ [] ∧ c :: cs = w ++ rest := by
  simp only [matchHead] at h
  by_cases hws : isWS c
  · rw [if_pos hws] at h
    cases hm : matchItems items ((c :: cs).dropWhile isWS) with
    | none => rw [hm] at h; exact absurd h (by simp)
    | some r0 =>
      rw [hm] at h
      simp only [Option.some.injEq, Prod.mk.injEq] at h
      obtain ⟨w, hw⟩ := matchItems_suffix _ _ _ hm
      refine ⟨(c :: cs).takeWhile isWS ++ w, ?_, ?_⟩
      · simp [List.takeWhile_cons, hws]
      · conv_lhs => rw [← List.takeWhile_append_dropWhile (p := isWS) (l := c :: cs)]
        rw [hw, h.2, List.append_assoc]
  · rw [if_neg hws] at h; exact absurd h (by simp)

theorem matchHead_shrinks {items : List RItem} {c : Char} {cs cap rest : List Char}
    (h : matchHead items (c :: cs) = some (cap, rest)) : rest.length ≤ cs.length := by
  obtain ⟨w, hne, hw⟩ := matchHead_consumes h
  have hlen : cs.length + 1 = w.length + rest.length := by
    have := congrArg List.length hw
    simpa [List.length_append, Nat.add_comm] using this
  have hwpos : 0 < w.length := List.length_pos.mpr hne
  omega

/-! ## Unfolding the scan -/

theorem shrinks_matchA : Shrinks matchA := by
  intro c cs cap rest h; exact matchHead_shrinks h

theorem shrinks_matchB : Shrinks matchB := by
  intro c cs cap rest h; exact matchHead_shrinks h

theorem reSubF_irrel {m : List Char → Option (List Char × List Char)}
    {r : List Char → List Char} (hm : Shrinks m) :
    ∀ f g s, s.length ≤ f → s.length ≤ g → reSubF m r f s = reSubF m r g s := by
  intro f
  induction f with
  | zero =>
    intro g s hf _
    have : s = [] := List.length_eq_zero.mp (Nat.le_zero.mp hf)
    subst this
    cases g <;> rfl
  | succ f ih =>
    intro g s hf hg
    cases s with
    | nil => cases g <;> rfl
    | cons c cs =>
      cases g with
      | zero => simp at hg
      | succ g =>
        have hcs : cs.length ≤ f := by simp only [List.length_cons] at hf; omega
        have hcs' : cs.length ≤ g := by simp only [List.length_cons] at hg; omega
        simp only [reSubF]
        cases hmc : m (c :: cs) with
        | none =>
          simp only [List.cons.injEq, true_and]
          exact ih g cs hcs hcs'
        | some pr =>
          obtain ⟨cap, rest⟩ := pr
          have hrest := hm c cs cap rest hmc
          simp only [List.append_cancel_left_eq]
          exact ih g rest (le_trans hrest hcs) (le_trans hrest hcs')

theorem reSub_cons_some {m : List Char → Option (List Char × List Char)}
    {r : List Char → List Char} (hm : Shrinks m) {c : Char} {cs cap rest : List Char}
    (h : m (c :: cs) = some (cap, rest)) :
    reSub m r (c :: cs) = r cap ++ reSub m r rest := by
  have hrest := hm c cs cap rest h
  simp only [reSub, List.length_cons, reSubF, h]
  congr 1
  exact reSubF_irrel hm cs.length rest.length rest hrest (le_refl _)

theorem reSub_cons_none {m : List Char → Option (List Char × List Char)}
    {r : List Char → List Char} {c : Char} {cs : List Char}
    (h : m (c :: cs) = none) :
    reSub m r (c :: cs) = c :: reSub m r cs := by
  simp only [reSub, List.length_cons, reSubF, h]

theorem subA_nil : subA [] = [] := rfl

theorem subB_nil : subB [] = [] := rfl

theorem subA_cons_some {c : Char} {cs cap rest : List Char}
    (h : matchA (c :: cs) = some (cap, rest)) :
    subA (c :: cs) = expandA cap ++ subA rest :=
  reSub_cons_some shrinks_matchA h

theorem subA_cons_none {c : Char} {cs : List Char} (h : matchA (c :: cs) = none) :
    subA (c :: cs) = c :: subA cs :=
  reSub_cons_none h

theorem subB_cons_some {c : Char} {cs cap rest : List Char}
    (h : matchB (c :: cs) = some (cap, rest)) :
    subB (c :: cs) = expandB cap ++ subB rest :=
  reSub_cons_some shrinks_matchB h

theorem subB_cons_none {c : Char} {cs : List Char} (h : matchB (c :: cs) = none) :
    subB (c :: cs) = c :: subB cs :=
  reSub_cons_none h

/-! ## Head analysis: a match starts with a mandatory whitespace character -/

theorem matchHead_not_ws {items : List RItem} {c : Char} {cs : List Char}
    (h : isWS c = false) : matchHead items (c :: cs) = none := by
  simp [matchHead, h]

theorem matchHead_ws {items : List RItem} {c : Char} {cs : List Char} (h : isWS c = true) :
    matchHead items (c :: cs) = none ↔ matchItems (RItem.wsStar :: items) cs = none := by
  simp only [matchHead, if_pos h, matchItems, List.dropWhile_cons, h, if_pos]
  cases matchItems items (cs.dropWhile isWS) <;> simp

theorem matchHead_cap {items : List RItem} {c : Char} {cs cap rest : List Char}
    (h : matchHead items (c :: cs) = some (cap, rest)) :
    cap = (c :: cs).takeWhile isWS ∧ isWS c = true ∧
      matchItems items ((c :: cs).dropWhile isWS) = some rest := by
  simp only [matchHead] at h
  by_cases hws : isWS c
  · rw [if_pos hws] at h
    cases hm : matchItems items ((c :: cs).dropWhile isWS) with
    | none => rw [hm] at h; cases h
    | some r0 =>
      rw [hm] at h
      simp only [Option.some.injEq, Prod.mk.injEq] at h
      exact ⟨h.1.symm, hws, congrArg some h.2⟩
  · rw [if_neg hws] at h; cases h

/-! ## Whitespace and character-class helper lemmas -/

theorem allWS_takeWhile (s : List Char) : allWS (s.takeWhile isWS) = true := by
  induction s with
  | nil => rfl
  | cons c cs ih =>
    by_cases h : isWS c
    · simp [List.takeWhile_cons, h, allWS, ih]
    · simp [List.takeWhile_cons, h, allWS]

theorem dropWhile_all_append {p : Char → Bool} {u : List Char} (v : List Char)
    (h : u.all p = true) : (u ++ v).dropWhile p = v.dropWhile p := by
  induction u with
  | nil => rfl
  | cons c cs ih =>
    simp only [List.all_cons, Bool.and_eq_true] at h
    simp [List.dropWhile_cons, h.1, ih h.2]

theorem dropWhile_cons_neg {p : Char → Bool} {c : Char} {cs : List Char}
    (h : p c = false) : (c :: cs).dropWhile p = c :: cs := by
  simp [List.dropWhile_cons, h]

theorem dropWhile_nonempty_append {p : Char → Bool} {u : List Char} (v : List Char)
    (h : u.dropWhile p ≠ []) : (u ++ v).dropWhile p = u.dropWhile p ++ v := by
  induction u with
  | nil => exact absurd rfl h
  | cons c cs ih =>
    by_cases hc : p c
    · rw [List.dropWhile_cons_of_pos hc] at h
      simp [List.dropWhile_cons, hc, ih h]
    · simp [List.dropWhile_cons, hc]

theorem class_ne {p : Char → Bool} {a b : Char} (ha : p a = true) (hb : p b = false) :
    a ≠ b := fun h => by rw [h, hb] at ha; cases ha

theorem char_beq_false {a b : Char} (h : a ≠ b) : (a == b) = false := by
  cases hq : a == b with
  | false => rfl
  | true => exact absurd (eq_of_beq hq) h

/-! ## dropLit helper lemmas -/

theorem dropLit_extend {p u r : List Char} (v : List Char) (h : dropLit p u = some r) :
    dropLit p (u ++ v) = some (r ++ v) := by
  induction p generalizing u r with
  | nil => simp_all [dropLit]
  | cons a as ih =>
    cases u with
    | nil => simp [dropLit] at h
    | cons b bs =>
      simp only [dropLit] at h ⊢
      by_cases hab : a == b
      · rw [if_pos hab] at h ⊢; exact ih h
      · rw [if_neg hab] at h; cases h

theorem dropLit_head_false {a : Char} {as : List Char} {b : Char} {bs : List Char}
    (h : (a == b) = false) : dropLit (a :: as) (b :: bs) = none := by
  simp [dropLit, h]

/-- A successful literal match across `u ++ c :: v` with `c` outside each of
`p`'s characters' class cannot exist unless it already succeeds inside `u` or
starts past it; specialised: if every character of `p` satisfies `q` and
`q c = false`, the match cannot cross `c`. -/
theorem dropLit_no_cross {q : Char → Bool} {p : List Char} {c : Char}
    (hp : p.all q = true) (hc : q c = false) :
    ∀ {u v r : List Char}, dropLit p (u ++ c :: v) = some r →
      ∃ r0, dropLit p u = some r0 := by
  induction p with
  | nil => intro u v r _; exact ⟨u, rfl⟩
  | cons a as ih =>
    intro u v r h
    simp only [List.all_cons, Bool.and_eq_true] at hp
    cases u with
    | nil =>
      rw [List.nil_append] at h
      rw [show dropLit (a :: as) (c :: v) = none from
        dropLit_head_false (char_beq_false (class_ne hp.1 hc))] at h
      cases h
    | cons b bs =>
      simp only [List.cons_append, dropLit] at h ⊢
      by_cases hab : a == b
      · rw [if_pos hab] at h ⊢
        exact ih hp.2 h
      · rw [if_neg hab] at h; cases h

/-! ## Substring occurrence -/

theorem occursIn_append_left {p u : List Char} (v : List Char)
    (h : occursIn p u = true) : occursIn p (u ++ v) = true := by
  induction u with
  | nil =>
    simp only [occursIn, List.isEmpty_iff] at h
    subst h
    cases v with
    | nil => rfl
    | cons c cs => simp [occursIn, dropLit]
  | cons c cs ih =>
    simp only [List.cons_append, occursIn, Bool.or_eq_true] at h ⊢
    cases h with
    | inl h =>
      left
      cases hd : dropLit p (c :: cs) with
      | none => rw [hd] at h; cases h
      | some r =>
        have h2 : dropLit p (c :: (cs ++ v)) = some (r ++ v) := dropLit_extend v hd
        show (dropLit p (c :: (cs ++ v))).isSome = true
        rw [h2]; rfl
    | inr h => right; exact ih h

theorem occursIn_append_right {p : List Char} (u : List Char) {v : List Char}
    (h : occursIn p v = true) : occursIn p (u ++ v) = true := by
  induction u with
  | nil => exact h
  | cons c cs ih => simp only [List.cons_append, occursIn, Bool.or_eq_true]; right; exact ih

theorem occursIn_ws_cons {p : List Char} {c : Char} {v : List Char}
    (hp : wsFree p = true) (hne : p ≠ []) (hc : isWS c = true) :
    occursIn p (c :: v) = occursIn p v := by
  cases p with
  | nil => exact absurd rfl hne
  | cons a as =>
    simp only [wsFree, List.all_cons, Bool.and_eq_true] at hp
    have ha : isWS a = false := by
      cases hq : isWS a with
      | false => rfl
      | true => rw [hq] at hp; simp at hp
    simp only [occursIn, dropLit_head_false (char_beq_false (class_ne hc ha).symm),
      Option.isSome_none, Bool.false_or]

theorem occursIn_allws_append {p g : List Char} (v : List Char)
    (hp : wsFree p = true) (hne : p ≠ []) (hg : allWS g = true) :
    occursIn p (g ++ v) = occursIn p v := by
  induction g with
  | nil => rfl
  | cons c cs ih =>
    simp only [allWS, List.all_cons, Bool.and_eq_true] at hg
    rw [List.cons_append, occursIn_ws_cons hp hne hg.1, ih hg.2]

theorem occursIn_append_sep {p : List Char} (u : List Char) {c : Char} (v : List Char)
    (hp : wsFree p = true) (hne : p ≠ []) (hc : isWS c = true) :
    occursIn p (u ++ c :: v) = (occursIn p u || occursIn p (c :: v)) := by
  induction u with
  | nil =>
    simp only [List.nil_append, occursIn]
    cases p with
    | nil => exact absurd rfl hne
    | cons a as => simp [List.isEmpty]
  | cons b bs ih =>
    have key : (dropLit p (b :: (bs ++ c :: v))).isSome = (dropLit p (b :: bs)).isSome := by
      cases hd2 : dropLit p (b :: bs) with
      | some r0 =>
        have h2 : dropLit p (b :: (bs ++ c :: v)) = some (r0 ++ c :: v) :=
          dropLit_extend (c :: v) hd2
        rw [h2]; rfl
      | none =>
        cases hd : dropLit p (b :: (bs ++ c :: v)) with
        | none => rfl
        | some r =>
          obtain ⟨r0, hr0⟩ := dropLit_no_cross (q := fun x => !isWS x)
            (by simpa [wsFree] using hp) (by simp [hc]) (u := b :: bs) (v := v) hd
          rw [hr0] at hd2; cases hd2
    show occursIn p (b :: (bs ++ c :: v)) = _
    conv_lhs => rw [show occursIn p (b :: (bs ++ c :: v)) =
      ((dropLit p (b :: (bs ++ c :: v))).isSome || occursIn p (bs ++ c :: v)) from rfl]
    conv_rhs => rw [show occursIn p (b :: bs) =
      ((dropLit p (b :: bs)).isSome || occursIn p bs) from rfl]
    rw [ih, key, Bool.or_assoc]

/-! ## No-occurrence contents are fixed points of the scan -/

theorem reSub_id_of_noMatch {m : List Char → Option (List Char × List Char)}
    {r : List Char → List Char} : ∀ {s : List Char},
    noMatchAll m s = true → reSub m r s = s := by
  intro s
  induction s with
  | nil => intro _; rfl
  | cons c cs ih =>
    intro h
    simp only [noMatchAll, Bool.and_eq_true, Option.isNone_iff_eq_none] at h
    rw [reSub_cons_none h.1, ih h.2]

theorem fixChanged (content : List Char) :
    (fix_test_file content).2 = (transform content != content) := by
  unfold fix_test_file
  by_cases h : transform content = content
  · simp [h]
  · simp [h, bne_iff_ne]

theorem fixContent (content : List Char) :
    (fix_test_file content).1 =
      (if transform content = content then content else transform content) := by
  unfold fix_test_file
  by_cases h : transform content = content
  · simp [h]
  · simp [h]

theorem processCount (fs : List (String × List Char)) :
    (processFiles fs).2.1 =
      fs.countP (fun f => f.1.endsWith ".rs" && (transform f.2 != f.2)) := by
  induction fs with
  | nil => rfl
  | cons f fs ih =>
    obtain ⟨name, content⟩ := f
    by_cases he : name.endsWith ".rs"
    · simp only [processFiles, he, if_true, List.countP_cons, fixChanged, ih]
      by_cases hc : transform content = content
      · simp [hc]
      · simp [hc, bne_iff_ne.mpr hc, Nat.add_comm]
    · simp [processFiles, he, List.countP_cons, ih]

theorem processLines (fs : List (String × List Char)) :
    (processFiles fs).1 =
      fs.filterMap (fun f =>
        if f.1.endsWith ".rs" then
          some (fixMessage ("tests/" ++ f.1) (transform f.2 != f.2))
        else none) := by
  induction fs with
  | nil => rfl
  | cons f fs ih =>
    obtain ⟨name, content⟩ := f
    by_cases he : name.endsWith ".rs"
    · simp [processFiles, he, List.filterMap_cons, ih, fixChanged]
    · simp [processFiles, he, List.filterMap_cons, ih]

/-! ## Claim theorems (first group) -/

/-- C10: an occurrence of either target pattern that is not preceded by at
least one whitespace character — for example one starting at the very first
byte of the file — is never matched, because both patterns require a
non-empty leading-whitespace capture group (`(\s+)`) before the `match`
keyword: any match attempt at a non-whitespace character fails. -/
theorem c10_requires_leading_ws (c : Char) (cs : List Char) (h : isWS c = false) :
    matchA (c :: cs) = none ∧ matchB (c :: cs) = none :=
  ⟨matchHead_not_ws h, matchHead_not_ws h⟩

set_option maxRecDepth 100000 in
/-- Witness for C10: the full rule-A occurrence text placed at the very
first byte of a file (`'m' :: sampleTail` is the occurrence with no
preceding whitespace): no match, and the fixing scan leaves the content
unrewritten. -/
theorem c10_witness :
    isWS 'm' = false ∧
      (matchA ('m' :: sampleTail) = none ∧ matchB ('m' :: sampleTail) = none) ∧
      subA ('m' :: sampleTail) = 'm' :: sampleTail :=
  ⟨by decide, c10_requires_leading_ws 'm' sampleTail (by decide),
    reSub_id_of_noMatch (by decide)⟩

/-- C2: the fixing operation overwrites the file if and only if the content
after applying both substitution rules differs from the original; when the
transformed content is identical the on-disk content (the first component)
is the original, byte for byte, and the returned flag is `false`. -/
theorem c2_write_iff_changed (content : List Char) :
    (fix_test_file content).2 = (transform content != content) ∧
    (fix_test_file content).1 =
      (if transform content = content then content else transform content) :=
  ⟨fixChanged content, fixContent content⟩

/-- C5: the printed total equals the number of directory entries whose name
ends in `.rs` and whose content actually differs after both rules are
applied; `.rs` entries with unchanged content are scanned but not
counted. -/
theorem c5_fixed_count (files : List (String × List Char)) :
    (mainRun files).2.1 =
      files.countP (fun f => f.1.endsWith ".rs" && (transform f.2 != f.2)) := by
  simpa [mainRun] using processCount files

/-- C8: the console output is exactly one line per `.rs` entry, in listing
order — `Fixed: tests/<name>` when the transformed content differs,
`No changes needed: tests/<name>` otherwise — followed by a blank line and
the summary `Fixed <N> test files`; entries not ending in `.rs` contribute
no line. -/
theorem c8_console_lines (files : List (String × List Char)) :
    (mainRun files).1 =
      files.filterMap (fun f =>
        if f.1.endsWith ".rs" then
          some (fixMessage ("tests/" ++ f.1) (transform f.2 != f.2))
        else none)
      ++ ["",
          "Fixed " ++
            toString (files.countP
              (fun f => f.1.endsWith ".rs" && (transform f.2 != f.2))) ++
          " test files"] := by
  simp [mainRun, processLines, processCount]

/-- C6: a candidate file with zero occurrences of either target pattern is
left byte-for-byte identical, the per-file report is `No changes needed:`,
and a failed pattern match is a silent no-op transform, not an error (the
transform is total and returns the content unchanged). -/
theorem c6_no_occurrence_no_change (content : List Char)
    (hA : noMatchAll matchA content = true) (hB : noMatchAll matchB content = true) :
    transform content = content ∧
    fix_test_file content = (content, false) ∧
    ∀ path, fixMessage path (fix_test_file content).2 = "No changes needed: " ++ path := by
  have hA' : subA content = content := reSub_id_of_noMatch hA
  have ht : transform content = content := by
    unfold transform
    rw [hA']
    exact reSub_id_of_noMatch hB
  refine ⟨ht, ?_, ?_⟩
  · unfold fix_test_file
    simp [ht]
  · intro path
    have : (fix_test_file content).2 = false := by unfold fix_test_file; simp [ht]
    simp [this, fixMessage]

/-- Witness for C6 at a concrete pattern-free content. -/
theorem c6_witness :
    noMatchAll matchA sampleClean = true ∧ noMatchAll matchB sampleClean = true ∧
    transform sampleClean = sampleClean ∧
    fix_test_file sampleClean = (sampleClean, false) ∧
    fixMessage "tests/init_test.rs" (fix_test_file sampleClean).2 =
      "No changes needed: tests/init_test.rs" :=
  ⟨by decide, by decide,
    (c6_no_occurrence_no_change sampleClean (by decide) (by decide)).1,
    (c6_no_occurrence_no_change sampleClean (by decide) (by decide)).2.1,
    (c6_no_occurrence_no_change sampleClean (by decide) (by decide)).2.2 "tests/init_test.rs"⟩

/-! ## Structure of the replacement text -/

theorem dropLit_self_append (p v : List Char) : dropLit p (p ++ v) = some v := by
  induction p with
  | nil => rfl
  | cons a as ih => simp [dropLit, ih]

theorem occursIn_expandTmpl_of_mem {p : List Char} (li : List Char)
    (lines : List (List Char)) (cap : List Char) (hmem : li ∈ lines)
    (h : occursIn p li = true) :
    occursIn p (expandTmpl lines cap) = true := by
  induction lines with
  | nil => cases hmem
  | cons l ls ih =>
    cases ls with
    | nil =>
      rw [List.mem_singleton] at hmem
      subst hmem
      exact occursIn_append_right cap h
    | cons l2 ls2 =>
      rw [List.mem_cons] at hmem
      show occursIn p (cap ++ l ++ '\n' :: expandTmpl (l2 :: ls2) cap) = true
      cases hmem with
      | inl hmem =>
        subst hmem
        rw [List.append_assoc]
        exact occursIn_append_right cap (occursIn_append_left _ h)
      | inr hmem =>
        rw [List.append_assoc]
        refine occursIn_append_right cap (occursIn_append_right l ?_)
        show ((dropLit p ('\n' :: expandTmpl (l2 :: ls2) cap)).isSome
          || occursIn p (expandTmpl (l2 :: ls2) cap)) = true
        rw [ih hmem, Bool.or_true]

theorem occursIn_expandTmpl_wsFree {p : List Char} (lines : List (List Char))
    {cap : List Char} (hp : wsFree p = true) (hne : p ≠ []) (hcap : allWS cap = true) :
    occursIn p (expandTmpl lines cap) = lines.any (occursIn p) := by
  induction lines with
  | nil =>
    show occursIn p [] = false
    cases p with
    | nil => exact absurd rfl hne
    | cons a as => rfl
  | cons l ls ih =>
    cases ls with
    | nil =>
      show occursIn p (cap ++ l) = _
      rw [occursIn_allws_append l hp hne hcap]
      simp
    | cons l2 ls2 =>
      show occursIn p (cap ++ l ++ '\n' :: expandTmpl (l2 :: ls2) cap) = _
      rw [List.append_assoc, occursIn_allws_append _ hp hne hcap,
        occursIn_append_sep l _ hp hne (by decide),
        occursIn_ws_cons hp hne (by decide), ih]
      simp [List.any_cons]

/-! ## Lines of the replacement text -/

theorem splitNL_no_nl {x : List Char} (h : x.all (fun c => !(c == '\n')) = true) :
    splitNL x = [x] := by
  induction x with
  | nil => rfl
  | cons c cs ih =>
    simp only [List.all_cons, Bool.and_eq_true] at h
    have hc : ¬(c = '\n') := by
      intro hq; rw [hq] at h; simpa using h.1
    simp only [splitNL, if_neg hc, ih h.2]

theorem splitNL_ne_nil (x : List Char) : splitNL x ≠ [] := by
  cases x with
  | nil => simp [splitNL]
  | cons c cs =>
    simp only [splitNL]
    by_cases hc : c = '\n'
    · simp [hc]
    · simp only [if_neg hc]
      cases splitNL cs <;> simp

theorem splitNL_append_nl {u : List Char} (v : List Char)
    (h : u.all (fun c => !(c == '\n')) = true) :
    splitNL (u ++ '\n' :: v) = u :: splitNL v := by
  induction u with
  | nil => simp [splitNL]
  | cons c cs ih =>
    simp only [List.all_cons, Bool.and_eq_true] at h
    have hc : ¬(c = '\n') := by
      intro hq; rw [hq] at h; simpa using h.1
    show splitNL (c :: (cs ++ '\n' :: v)) = (c :: cs) :: splitNL v
    simp only [splitNL, if_neg hc, ih h.2]

theorem splitNL_expandTmpl {lines : List (List Char)} {cap : List Char}
    (hl : lines.all (fun l => l.all (fun c => !(c == '\n'))) = true)
    (hc : cap.all (fun c => !(c == '\n')) = true) (hne : lines ≠ []) :
    splitNL (expandTmpl lines cap) = lines.map (fun l => cap ++ l) := by
  induction lines with
  | nil => exact absurd rfl hne
  | cons l ls ih =>
    simp only [List.all_cons, Bool.and_eq_true] at hl
    cases ls with
    | nil =>
      show splitNL (cap ++ l) = [cap ++ l]
      exact splitNL_no_nl (by simp [List.all_append, hc, hl.1])
    | cons l2 ls2 =>
      show splitNL (cap ++ l ++ '\n' :: expandTmpl (l2 :: ls2) cap) = _
      rw [splitNL_append_nl _ (by simp [List.all_append, hc, hl.1]),
        ih (by simp [hl.2]) (by simp)]
      rfl

/-! ## Claim theorems (second group) -/

/-- C1: whenever rule A's pattern matches, the fixing operation replaces the
occurrence by the new structural text `expandA cap`: its success branch
contains the two read-only probe calls (`is_destroyed`,
`get_active_config_id`) and the availability log line, its error branch
contains the unconditional `return Err(e);`, and the replacement contains no
`SzError::Configuration` special case (no swallowing). -/
theorem c1_replacement_structure (s cap rest : List Char)
    (h : matchA s = some (cap, rest)) :
    subA s = expandA cap ++ subA rest ∧
    occursIn "let _is_destroyed = env.is_destroyed();".toList (expandA cap) = true ∧
    occursIn "let _active_config_result = env.get_active_config_id();".toList
      (expandA cap) = true ∧
    occursIn "eprintln!(\"Environment available for testing\");".toList
      (expandA cap) = true ∧
    occursIn "return Err(e);".toList (expandA cap) = true ∧
    occursIn "SzError::Configuration".toList (expandA cap) = false := by
  cases s with
  | nil => cases h
  | cons c cs =>
    have hcap : allWS cap = true := by
      rw [(matchHead_cap h).1]; exact allWS_takeWhile (c :: cs)
    refine ⟨subA_cons_some h, ?_, ?_, ?_, ?_, ?_⟩
    · exact occursIn_expandTmpl_of_mem
        "        let _is_destroyed = env.is_destroyed();".toList
        new_pattern cap (by decide) (by decide)
    · exact occursIn_expandTmpl_of_mem
        "        let _active_config_result = env.get_active_config_id();".toList
        new_pattern cap (by decide) (by decide)
    · exact occursIn_expandTmpl_of_mem
        "        eprintln!(\"Environment available for testing\");".toList
        new_pattern cap (by decide) (by decide)
    · exact occursIn_expandTmpl_of_mem
        "        return Err(e);".toList
        new_pattern cap (by decide) (by decide)
    · rw [show expandA cap = expandTmpl new_pattern cap from rfl,
        occursIn_expandTmpl_wsFree new_pattern (by decide) (by decide) hcap]
      decide

set_option maxRecDepth 400000 in
/-- Witness for C1 at `sampleA` (capture `"\n "`, remainder empty). -/
theorem c1_witness :
    matchA sampleA = some ("\n ".toList, []) ∧
    (subA sampleA = expandA "\n ".toList ++ subA [] ∧
     occursIn "let _is_destroyed = env.is_destroyed();".toList
       (expandA "\n ".toList) = true ∧
     occursIn "let _active_config_result = env.get_active_config_id();".toList
       (expandA "\n ".toList) = true ∧
     occursIn "eprintln!(\"Environment available for testing\");".toList
       (expandA "\n ".toList) = true ∧
     occursIn "return Err(e);".toList (expandA "\n ".toList) = true ∧
     occursIn "SzError::Configuration".toList (expandA "\n ".toList) = false) :=
  ⟨by decide, c1_replacement_structure sampleA "\n ".toList [] (by decide)⟩

set_option maxRecDepth 400000 in
/-- Counterexample to C4 as stated: for the occurrence in `sampleA` the
match begins with the whitespace prefix `"\n "` (a newline then one space —
the capture group takes the whole maximal whitespace run, newlines
included), yet not every line of the emitted replacement text begins with
that captured prefix: the replacement's lines each start with `"\n "`'s
trailing space only, the newline having become a line separator. -/
theorem c4_counterexample :
    matchA sampleA = some ("\n ".toList, []) ∧
    subA sampleA = expandA "\n ".toList ∧
    (splitNL (expandA "\n ".toList)).all
      (fun l => (dropLit "\n ".toList l).isSome) = false :=
  ⟨by decide, by decide, by decide⟩

/-- C4 as amended: for an occurrence whose captured leading-whitespace group
contains no newline (for example exactly eight spaces), every line of the
emitted replacement text begins with exactly that captured prefix (the
amendment excludes captures containing a newline, which the counterexample
shows violate the claim). -/
theorem c4_amended_lines (s cap rest : List Char) (h : matchA s = some (cap, rest))
    (hnl : cap.all (fun c => !(c == '\n')) = true) :
    subA s = expandA cap ++ subA rest ∧
    splitNL (expandA cap) = new_pattern.map (fun l => cap ++ l) ∧
    (splitNL (expandA cap)).all (fun l => (dropLit cap l).isSome) = true := by
  cases s with
  | nil => cases h
  | cons c cs =>
    have hsp : splitNL (expandA cap) = new_pattern.map (fun l => cap ++ l) :=
      splitNL_expandTmpl (by decide) hnl (by decide)
    refine ⟨subA_cons_some h, hsp, ?_⟩
    rw [hsp, List.all_map]
    apply List.all_eq_true.mpr
    intro l _
    show (dropLit cap (cap ++ l)).isSome = true
    rw [dropLit_self_append]
    rfl

set_option maxRecDepth 400000 in
/-- Witness for the amended C4 at a capture of exactly eight spaces. -/
theorem c4_amended_witness :
    matchA sampleA8 = some ("        ".toList, []) ∧
    ("        ".toList.all (fun c => !(c == '\n')) = true) ∧
    (subA sampleA8 = expandA "        ".toList ++ subA [] ∧
     splitNL (expandA "        ".toList) =
       new_pattern.map (fun l => "        ".toList ++ l) ∧
     (splitNL (expandA "        ".toList)).all
       (fun l => (dropLit "        ".toList l).isSome) = true) :=
  ⟨by decide, by decide,
    c4_amended_lines sampleA8 "        ".toList [] (by decide) (by decide)⟩

/-! ## The scan as a trace (frame property) -/

theorem consumes_matchA : Consumes matchA := by
  intro c cs cap rest h; exact matchHead_consumes h

theorem consumes_matchB : Consumes matchB := by
  intro c cs cap rest h; exact matchHead_consumes h

theorem subTrace_reSub {m : List Char → Option (List Char × List Char)}
    {r : List Char → List Char} (hm : Consumes m) (hs : Shrinks m) :
    ∀ s, SubTrace m r s (reSub m r s) := by
  have main : ∀ n s, s.length ≤ n → SubTrace m r s (reSub m r s) := by
    intro n
    induction n with
    | zero =>
      intro s hsl
      have : s = [] := List.length_eq_zero.mp (Nat.le_zero.mp hsl)
      subst this
      exact SubTrace.nil
    | succ n ih =>
      intro s hsl
      cases s with
      | nil => exact SubTrace.nil
      | cons c cs =>
        cases hmc : m (c :: cs) with
        | none =>
          rw [reSub_cons_none hmc]
          exact SubTrace.keep c cs _ hmc
            (ih cs (by simp only [List.length_cons] at hsl; omega))
        | some pr =>
          obtain ⟨cap, rest⟩ := pr
          obtain ⟨w, hne, hw⟩ := hm c cs cap rest hmc
          have hrl : rest.length ≤ cs.length := hs c cs cap rest hmc
          rw [reSub_cons_some hs hmc, hw]
          exact SubTrace.subst w cap rest _ hne (hw ▸ hmc)
            (ih rest (by simp only [List.length_cons] at hsl; omega))
  intro s
  exact main s.length s (le_refl _)

/-- C9: each substitution pass only alters the matched spans — the scan
decomposes the input into kept characters (positions where the pattern
fails, copied verbatim and in order) and matched spans (replaced by the
instantiated template); this holds for rule A's pass on the input and for
rule B's pass on rule A's output, hence every character outside the matched
spans survives byte-for-byte and in order into `transform`'s output. -/
theorem c9_frame (s : List Char) :
    SubTrace matchA expandA s (subA s) ∧
    SubTrace matchB expandB (subA s) (transform s) :=
  ⟨subTrace_reSub consumes_matchA shrinks_matchA s,
   subTrace_reSub consumes_matchB shrinks_matchB (subA s)⟩

/-! ## Single-step characterisation of the matcher -/

theorem matchItems_lit_nil (is : List RItem) (s : List Char) :
    matchItems (RItem.lit [] :: is) s = matchItems is s := rfl

theorem matchItems_lit_cons (a : Char) (as : List Char) (is : List RItem) (b : Char)
    (x : List Char) :
    matchItems (RItem.lit (a :: as) :: is) (b :: x) =
      if a == b then matchItems (RItem.lit as :: is) x else none := by
  by_cases h : a == b <;> simp [matchItems, dropLit, h]

theorem matchItems_ws_cons (is : List RItem) (c : Char) (x : List Char) :
    matchItems (RItem.wsStar :: is) (c :: x) =
      if isWS c then matchItems (RItem.wsStar :: is) x else matchItems is (c :: x) := by
  by_cases h : isWS c <;> simp [matchItems, List.dropWhile_cons, h]

theorem matchItems_nbP_cons (is : List RItem) (c : Char) (x : List Char) :
    matchItems (RItem.nbPlus :: is) (c :: x) =
      if notRB c then matchItems (RItem.nbStar :: is) x else none := by
  by_cases h : notRB c <;> simp [matchItems, List.dropWhile_cons, h]

theorem matchItems_nbS_cons (is : List RItem) (c : Char) (x : List Char) :
    matchItems (RItem.nbStar :: is) (c :: x) =
      if notRB c then matchItems (RItem.nbStar :: is) x else matchItems is (c :: x) := by
  by_cases h : notRB c <;> simp [matchItems, List.dropWhile_cons, h]

theorem matchItems_ws_all_append {g : List Char} (is : List RItem) (X : List Char)
    (hg : allWS g = true) :
    matchItems (RItem.wsStar :: is) (g ++ X) = matchItems (RItem.wsStar :: is) X := by
  simp only [matchItems]
  rw [dropWhile_all_append X hg]

theorem matchItems_nbS_all_append {g : List Char} (is : List RItem) (X : List Char)
    (hg : g.all notRB = true) :
    matchItems (RItem.nbStar :: is) (g ++ X) = matchItems (RItem.nbStar :: is) X := by
  simp only [matchItems]
  rw [dropWhile_all_append X hg]

theorem notRB_of_isWS {c : Char} (h : isWS c = true) : notRB c = true := by
  cases hq : (c == rbrace) with
  | false => simp [notRB, hq]
  | true =>
    have hc : c = rbrace := eq_of_beq hq
    subst hc
    exact absurd h (by decide)

theorem all_notRB_of_allWS {g : List Char} (h : allWS g = true) : g.all notRB = true := by
  simp only [allWS] at h
  rw [List.all_eq_true] at h ⊢
  intro c hc
  exact notRB_of_isWS (h c hc)

theorem bfalse {b : Bool} (h : ¬ b = true) : b = false := by
  cases b
  · rfl
  · exact absurd rfl h

theorem bnot_true {b : Bool} (h : b = false) : ¬ b = true := by
  intro hq; rw [hq] at h; cases h

theorem allWS_tail {g0 : Char} {g' : List Char} (h : allWS (g0 :: g') = true) :
    isWS g0 = true ∧ allWS g' = true := by
  simpa [allWS] using h

theorem ws_blob0_aux {is : List RItem} {ss' : List Seg}
    (h1 : ∀ rr, Renders (Seg.blob0 :: ss') rr → ∀ z, matchItems is (rr ++ z) = none)
    (h2 : ∀ rr, Renders ss' rr → ∀ z, matchItems (RItem.wsStar :: is) (rr ++ z) = none) :
    ∀ g, g.all notRB = true → ∀ rr, Renders ss' rr → ∀ z,
      matchItems (RItem.wsStar :: is) ((g ++ rr) ++ z) = none := by
  intro g
  induction g with
  | nil => intro _ rr hrr z; simpa using h2 rr hrr z
  | cons g0 g' ih =>
    intro hg rr hrr z
    simp only [List.all_cons, Bool.and_eq_true] at hg
    rw [show ((g0 :: g') ++ rr) ++ z = g0 :: ((g' ++ rr) ++ z) by simp]
    rw [matchItems_ws_cons]
    by_cases hw : isWS g0
    · rw [if_pos hw]; exact ih hg.2 rr hrr z
    · rw [if_neg hw]
      have hrb : Renders (Seg.blob0 :: ss') ((g0 :: g') ++ rr) :=
        Renders.blob0 (g0 :: g') ss' rr (by simp [hg.1, hg.2]) hrr
      simpa using h1 _ hrb z

set_option maxHeartbeats 1000000 in
theorem symMatchF_sound : ∀ (f : Nat) (σ : List RItem) (ss : List Seg),
    symMatchF f σ ss = true → ∀ r, Renders ss r → ∀ z, matchItems σ (r ++ z) = none := by
  intro f
  induction f with
  | zero => intro σ ss h; simp [symMatchF] at h
  | succ f ih =>
    intro σ ss h r hr z
    cases ss with
    | nil => simp [symMatchF] at h
    | cons sg ss' =>
      cases σ with
      | nil => simp [symMatchF] at h
      | cons it is =>
        cases it with
        | lit l =>
          cases l with
          | nil =>
            rw [matchItems_lit_nil]
            have h' : symMatchF f is (sg :: ss') = true := by simpa [symMatchF] using h
            exact ih is (sg :: ss') h' r hr z
          | cons a as =>
            cases sg with
            | conc c =>
              cases hr with
              | conc _ _ r2 hr2 =>
                cases c with
                | nil =>
                  have h' : symMatchF f (RItem.lit (a :: as) :: is) ss' = true := by
                    simpa [symMatchF] using h
                  simpa using ih _ _ h' r2 hr2 z
                | cons b bs =>
                  rw [show ((b :: bs) ++ r2) ++ z = b :: ((bs ++ r2) ++ z) by simp]
                  rw [matchItems_lit_cons]
                  by_cases hab : a == b
                  · rw [if_pos hab]
                    have h' : symMatchF f (RItem.lit as :: is) (Seg.conc bs :: ss') = true := by
                      simpa [symMatchF, hab] using h
                    exact ih _ _ h' (bs ++ r2) (Renders.conc bs ss' r2 hr2) z
                  · rw [if_neg hab]
            | gap =>
              cases hr with
              | gap g _ r2 hgne hgws hr2 =>
                cases g with
                | nil => exact absurd rfl hgne
                | cons g0 g' =>
                  obtain ⟨hg0, hg'⟩ := allWS_tail hgws
                  rw [show ((g0 :: g') ++ r2) ++ z = g0 :: ((g' ++ r2) ++ z) by simp]
                  rw [matchItems_lit_cons]
                  by_cases haw : isWS a
                  · by_cases hag : a == g0
                    · rw [if_pos hag]
                      have h' : symMatchF f (RItem.lit as :: is) (Seg.gap0 :: ss') = true := by
                        simpa [symMatchF, haw] using h
                      exact ih _ _ h' (g' ++ r2) (Renders.gap0 g' ss' r2 hg' hr2) z
                    · rw [if_neg hag]
                  · rw [if_neg (bnot_true (char_beq_false (class_ne hg0 (bfalse haw)).symm))]
            | gap0 =>
              cases hr with
              | gap0 g _ r2 hgws hr2 =>
                by_cases haw : isWS a
                · have hcon : symMatchF f (RItem.lit as :: is) (Seg.gap0 :: ss') = true ∧
                      symMatchF f (RItem.lit (a :: as) :: is) ss' = true := by
                    have h2 := h
                    simp only [symMatchF, haw, if_true, Bool.and_eq_true] at h2
                    exact h2
                  cases g with
                  | nil => simpa using ih _ _ hcon.2 r2 hr2 z
                  | cons g0 g' =>
                    obtain ⟨hg0, hg'⟩ := allWS_tail hgws
                    rw [show ((g0 :: g') ++ r2) ++ z = g0 :: ((g' ++ r2) ++ z) by simp]
                    rw [matchItems_lit_cons]
                    by_cases hag : a == g0
                    · rw [if_pos hag]
                      exact ih _ _ hcon.1 (g' ++ r2) (Renders.gap0 g' ss' r2 hg' hr2) z
                    · rw [if_neg hag]
                · have h' : symMatchF f (RItem.lit (a :: as) :: is) ss' = true := by
                    simpa [symMatchF, haw] using h
                  cases g with
                  | nil => simpa using ih _ _ h' r2 hr2 z
                  | cons g0 g' =>
                    obtain ⟨hg0, _⟩ := allWS_tail hgws
                    rw [show ((g0 :: g') ++ r2) ++ z = g0 :: ((g' ++ r2) ++ z) by simp]
                    rw [matchItems_lit_cons]
                    rw [if_neg (bnot_true (char_beq_false (class_ne hg0 (bfalse haw)).symm))]
            | blob =>
              cases hr with
              | blob g _ r2 hgne hgnb hr2 =>
                cases g with
                | nil => exact absurd rfl hgne
                | cons g0 g' =>
                  simp only [List.all_cons, Bool.and_eq_true] at hgnb
                  rw [show ((g0 :: g') ++ r2) ++ z = g0 :: ((g' ++ r2) ++ z) by simp]
                  rw [matchItems_lit_cons]
                  by_cases har : a == rbrace
                  · have ha : a = rbrace := eq_of_beq har
                    have hg0r : ¬(g0 = rbrace) := by
                      intro hq
                      rw [hq] at hgnb
                      simp [notRB] at hgnb
                    rw [if_neg (by rw [ha]; exact bnot_true (char_beq_false (fun hq => hg0r hq.symm)))]
                  · by_cases hag : a == g0
                    · rw [if_pos hag]
                      have h' : symMatchF f (RItem.lit as :: is) (Seg.blob0 :: ss') = true := by
                        simpa [symMatchF, har] using h
                      exact ih _ _ h' (g' ++ r2) (Renders.blob0 g' ss' r2 hgnb.2 hr2) z
                    · rw [if_neg hag]
            | blob0 =>
              cases hr with
              | blob0 g _ r2 hgnb hr2 =>
                by_cases har : a == rbrace
                · have h' : symMatchF f (RItem.lit (a :: as) :: is) ss' = true := by
                    simpa [symMatchF, har] using h
                  cases g with
                  | nil => simpa using ih _ _ h' r2 hr2 z
                  | cons g0 g' =>
                    simp only [List.all_cons, Bool.and_eq_true] at hgnb
                    have ha : a = rbrace := eq_of_beq har
                    have hg0r : ¬(g0 = rbrace) := by
                      intro hq
                      rw [hq] at hgnb
                      simp [notRB] at hgnb
                    rw [show ((g0 :: g') ++ r2) ++ z = g0 :: ((g' ++ r2) ++ z) by simp]
                    rw [matchItems_lit_cons]
                    rw [if_neg (by rw [ha]; exact bnot_true (char_beq_false (fun hq => hg0r hq.symm)))]
                · have hcon : symMatchF f (RItem.lit as :: is) (Seg.blob0 :: ss') = true ∧
                      symMatchF f (RItem.lit (a :: as) :: is) ss' = true := by
                    have h2 := h
                    simp [symMatchF, har] at h2
                    exact h2
                  cases g with
                  | nil => simpa using ih _ _ hcon.2 r2 hr2 z
                  | cons g0 g' =>
                    simp only [List.all_cons, Bool.and_eq_true] at hgnb
                    rw [show ((g0 :: g') ++ r2) ++ z = g0 :: ((g' ++ r2) ++ z) by simp]
                    rw [matchItems_lit_cons]
                    by_cases hag : a == g0
                    · rw [if_pos hag]
                      exact ih _ _ hcon.1 (g' ++ r2) (Renders.blob0 g' ss' r2 hgnb.2 hr2) z
                    · rw [if_neg hag]
        | wsStar =>
          cases sg with
          | conc c =>
            cases hr with
            | conc _ _ r2 hr2 =>
              cases c with
              | nil =>
                have h' : symMatchF f (RItem.wsStar :: is) ss' = true := by
                  simpa [symMatchF] using h
                simpa using ih _ _ h' r2 hr2 z
              | cons b bs =>
                rw [show ((b :: bs) ++ r2) ++ z = b :: ((bs ++ r2) ++ z) by simp]
                rw [matchItems_ws_cons]
                by_cases hbw : isWS b
                · rw [if_pos hbw]
                  have h' : symMatchF f (RItem.wsStar :: is) (Seg.conc bs :: ss') = true := by
                    simpa [symMatchF, hbw] using h
                  exact ih _ _ h' (bs ++ r2) (Renders.conc bs ss' r2 hr2) z
                · rw [if_neg hbw]
                  have h' : symMatchF f is (Seg.conc (b :: bs) :: ss') = true := by
                    simpa [symMatchF, hbw] using h
                  simpa using ih _ _ h' ((b :: bs) ++ r2) (Renders.conc (b :: bs) ss' r2 hr2) z
          | gap =>
            cases hr with
            | gap g _ r2 hgne hgws hr2 =>
              rw [List.append_assoc, matchItems_ws_all_append is _ hgws]
              have h' : symMatchF f (RItem.wsStar :: is) ss' = true := by
                simpa [symMatchF] using h
              exact ih _ _ h' r2 hr2 z
          | gap0 =>
            cases hr with
            | gap0 g _ r2 hgws hr2 =>
              rw [List.append_assoc, matchItems_ws_all_append is _ hgws]
              have h' : symMatchF f (RItem.wsStar :: is) ss' = true := by
                simpa [symMatchF] using h
              exact ih _ _ h' r2 hr2 z
          | blob =>
            cases hr with
            | blob g _ r2 hgne hgnb hr2 =>
              have hcon : symMatchF f is (Seg.blob0 :: ss') = true ∧
                  symMatchF f (RItem.wsStar :: is) ss' = true := by
                have h2 := h
                simp only [symMatchF, Bool.and_eq_true] at h2
                exact h2
              exact ws_blob0_aux (fun rr hrr z' => ih _ _ hcon.1 rr hrr z')
                (fun rr hrr z' => ih _ _ hcon.2 rr hrr z') g hgnb r2 hr2 z
          | blob0 =>
            cases hr with
            | blob0 g _ r2 hgnb hr2 =>
              have hcon : symMatchF f is (Seg.blob0 :: ss') = true ∧
                  symMatchF f (RItem.wsStar :: is) ss' = true := by
                have h2 := h
                simp only [symMatchF, Bool.and_eq_true] at h2
                exact h2
              exact ws_blob0_aux (fun rr hrr z' => ih _ _ hcon.1 rr hrr z')
                (fun rr hrr z' => ih _ _ hcon.2 rr hrr z') g hgnb r2 hr2 z
        | nbPlus =>
          cases sg with
          | conc c =>
            cases hr with
            | conc _ _ r2 hr2 =>
              cases c with
              | nil =>
                have h' : symMatchF f (RItem.nbPlus :: is) ss' = true := by
                  simpa [symMatchF] using h
                simpa using ih _ _ h' r2 hr2 z
              | cons b bs =>
                rw [show ((b :: bs) ++ r2) ++ z = b :: ((bs ++ r2) ++ z) by simp]
                rw [matchItems_nbP_cons]
                by_cases hbr : b == rbrace
                · rw [if_neg (by simp [notRB, hbr])]
                · have hnb : notRB b = true := by simp [notRB, hbr]
                  rw [if_pos hnb]
                  have h' : symMatchF f (RItem.nbStar :: is) (Seg.conc bs :: ss') = true := by
                    simpa [symMatchF, hbr] using h
                  exact ih _ _ h' (bs ++ r2) (Renders.conc bs ss' r2 hr2) z
          | gap =>
            cases hr with
            | gap g _ r2 hgne hgws hr2 =>
              cases g with
              | nil => exact absurd rfl hgne
              | cons g0 g' =>
                obtain ⟨hg0, hg'⟩ := allWS_tail hgws
                rw [show ((g0 :: g') ++ r2) ++ z = g0 :: ((g' ++ r2) ++ z) by simp]
                rw [matchItems_nbP_cons, if_pos (notRB_of_isWS hg0), List.append_assoc,
                  matchItems_nbS_all_append is _ (all_notRB_of_allWS hg')]
                have h' : symMatchF f (RItem.nbStar :: is) ss' = true := by
                  simpa [symMatchF] using h
                exact ih _ _ h' r2 hr2 z
          | gap0 =>
            cases hr with
            | gap0 g _ r2 hgws hr2 =>
              have hcon : symMatchF f (RItem.nbPlus :: is) ss' = true ∧
                  symMatchF f (RItem.nbStar :: is) ss' = true := by
                have h2 := h
                simp only [symMatchF, Bool.and_eq_true] at h2
                exact h2
              cases g with
              | nil => simpa using ih _ _ hcon.1 r2 hr2 z
              | cons g0 g' =>
                obtain ⟨hg0, hg'⟩ := allWS_tail hgws
                rw [show ((g0 :: g') ++ r2) ++ z = g0 :: ((g' ++ r2) ++ z) by simp]
                rw [matchItems_nbP_cons, if_pos (notRB_of_isWS hg0), List.append_assoc,
                  matchItems_nbS_all_append is _ (all_notRB_of_allWS hg')]
                exact ih _ _ hcon.2 r2 hr2 z
          | blob =>
            cases hr with
            | blob g _ r2 hgne hgnb hr2 =>
              cases g with
              | nil => exact absurd rfl hgne
              | cons g0 g' =>
                simp only [List.all_cons, Bool.and_eq_true] at hgnb
                rw [show ((g0 :: g') ++ r2) ++ z = g0 :: ((g' ++ r2) ++ z) by simp]
                rw [matchItems_nbP_cons, if_pos hgnb.1, List.append_assoc,
                  matchItems_nbS_all_append is _ hgnb.2]
                have h' : symMatchF f (RItem.nbStar :: is) ss' = true := by
                  simpa [symMatchF] using h
                exact ih _ _ h' r2 hr2 z
          | blob0 =>
            cases hr with
            | blob0 g _ r2 hgnb hr2 =>
              have hcon : symMatchF f (RItem.nbPlus :: is) ss' = true ∧
                  symMatchF f (RItem.nbStar :: is) ss' = true := by
                have h2 := h
                simp only [symMatchF, Bool.and_eq_true] at h2
                exact h2
              cases g with
              | nil => simpa using ih _ _ hcon.1 r2 hr2 z
              | cons g0 g' =>
                simp only [List.all_cons, Bool.and_eq_true] at hgnb
                rw [show ((g0 :: g') ++ r2) ++ z = g0 :: ((g' ++ r2) ++ z) by simp]
                rw [matchItems_nbP_cons, if_pos hgnb.1, List.append_assoc,
                  matchItems_nbS_all_append is _ hgnb.2]
                exact ih _ _ hcon.2 r2 hr2 z
        | nbStar =>
          cases sg with
          | conc c =>
            cases hr with
            | conc _ _ r2 hr2 =>
              cases c with
              | nil =>
                have h' : symMatchF f (RItem.nbStar :: is) ss' = true := by
                  simpa [symMatchF] using h
                simpa using ih _ _ h' r2 hr2 z
              | cons b bs =>
                rw [show ((b :: bs) ++ r2) ++ z = b :: ((bs ++ r2) ++ z) by simp]
                rw [matchItems_nbS_cons]
                by_cases hbr : b == rbrace
                · rw [if_neg (by simp [notRB, hbr])]
                  have h' : symMatchF f is (Seg.conc (b :: bs) :: ss') = true := by
                    simpa [symMatchF, hbr] using h
                  simpa using ih _ _ h' ((b :: bs) ++ r2) (Renders.conc (b :: bs) ss' r2 hr2) z
                · have hnb : notRB b = true := by simp [notRB, hbr]
                  rw [if_pos hnb]
                  have h' : symMatchF f (RItem.nbStar :: is) (Seg.conc bs :: ss') = true := by
                    simpa [symMatchF, hbr] using h
                  exact ih _ _ h' (bs ++ r2) (Renders.conc bs ss' r2 hr2) z
          | gap =>
            cases hr with
            | gap g _ r2 hgne hgws hr2 =>
              rw [List.append_assoc, matchItems_nbS_all_append is _ (all_notRB_of_allWS hgws)]
              have h' : symMatchF f (RItem.nbStar :: is) ss' = true := by
                simpa [symMatchF] using h
              exact ih _ _ h' r2 hr2 z
          | gap0 =>
            cases hr with
            | gap0 g _ r2 hgws hr2 =>
              rw [List.append_assoc, matchItems_nbS_all_append is _ (all_notRB_of_allWS hgws)]
              have h' : symMatchF f (RItem.nbStar :: is) ss' = true := by
                simpa [symMatchF] using h
              exact ih _ _ h' r2 hr2 z
          | blob =>
            cases hr with
            | blob g _ r2 hgne hgnb hr2 =>
              rw [List.append_assoc, matchItems_nbS_all_append is _ hgnb]
              have h' : symMatchF f (RItem.nbStar :: is) ss' = true := by
                simpa [symMatchF] using h
              exact ih _ _ h' r2 hr2 z
          | blob0 =>
            cases hr with
            | blob0 g _ r2 hgnb hr2 =>
              rw [List.append_assoc, matchItems_nbS_all_append is _ hgnb]
              have h' : symMatchF f (RItem.nbStar :: is) ss' = true := by
                simpa [symMatchF] using h
              exact ih _ _ h' r2 hr2 z

/-! ## Replacement blocks and spans as symbolic strings -/

theorem renders_expandTmpl (lines : List (List Char)) {cap : List Char}
    (hne : cap ≠ []) (hws : allWS cap = true) :
    Renders (segsOfTmpl lines) (expandTmpl lines cap) := by
  induction lines with
  | nil => exact Renders.nil
  | cons l ls ih =>
    cases ls with
    | nil =>
      have h1 : Renders [Seg.conc l] l := by
        simpa using Renders.conc l [] [] Renders.nil
      exact Renders.gap cap _ l hne hws h1
    | cons l2 ls2 =>
      have h2 : Renders (Seg.conc (l ++ ['\n']) :: segsOfTmpl (l2 :: ls2))
          ((l ++ ['\n']) ++ expandTmpl (l2 :: ls2) cap) :=
        Renders.conc _ _ _ ih
      have h3 := Renders.gap cap _ _ hne hws h2
      show Renders (segsOfTmpl (l :: l2 :: ls2)) (cap ++ l ++ '\n' :: expandTmpl (l2 :: ls2) cap)
      simpa [List.append_assoc] using h3

theorem expandTmpl_cons (l : List Char) (rest : List (List Char)) (cap : List Char)
    (h : rest ≠ []) :
    expandTmpl (l :: rest) cap = cap ++ l ++ '\n' :: expandTmpl rest cap := by
  cases rest with
  | nil => exact absurd rfl h
  | cons l2 ls => rfl

theorem expandTmpl_ends_rbrace : ∀ (ls : List (List Char)) (cap : List Char),
    ∃ u, expandTmpl (ls ++ [[rbrace]]) cap = u ++ [rbrace] := by
  intro ls
  induction ls with
  | nil => intro cap; exact ⟨cap, rfl⟩
  | cons l ls ih =>
    intro cap
    obtain ⟨u, hu⟩ := ih cap
    refine ⟨cap ++ l ++ '\n' :: u, ?_⟩
    rw [List.cons_append, expandTmpl_cons l (ls ++ [[rbrace]]) cap (by simp), hu]
    simp

theorem expandA_ends (cap : List Char) : ∃ u, expandA cap = u ++ [rbrace] := by
  have hsplit : new_pattern = new_pattern.dropLast ++ [[rbrace]] := by decide
  show ∃ u, expandTmpl new_pattern cap = u ++ [rbrace]
  rw [hsplit]
  exact expandTmpl_ends_rbrace _ cap

theorem expandB_ends (cap : List Char) : ∃ u, expandB cap = u ++ [rbrace] := by
  have hsplit : engine_new_pattern = engine_new_pattern.dropLast ++ [[rbrace]] := by decide
  show ∃ u, expandTmpl engine_new_pattern cap = u ++ [rbrace]
  rw [hsplit]
  exact expandTmpl_ends_rbrace _ cap

/-! ## Suffixes of symbolic strings -/

theorem suffix_append_cases {α : Type} {v r : List α} : ∀ {c : List α}, v <:+ c ++ r →
    v <:+ r ∨ ∃ c', c' <:+ c ∧ c' ≠ [] ∧ v = c' ++ r := by
  intro c
  induction c with
  | nil => intro h; exact Or.inl (by simpa using h)
  | cons a c' ih =>
    intro h
    rw [List.cons_append, List.suffix_cons_iff] at h
    cases h with
    | inl h =>
      exact Or.inr ⟨a :: c', List.suffix_refl _, by simp, by rw [h, List.cons_append]⟩
    | inr h =>
      cases ih h with
      | inl h2 => exact Or.inl h2
      | inr h2 =>
        obtain ⟨c'', hc1, hc2, hc3⟩ := h2
        exact Or.inr ⟨c'', hc1.trans (List.suffix_cons a c'), hc2, hc3⟩

theorem all_of_suffix {p : Char → Bool} {g' g : List Char} (h : g' <:+ g)
    (hg : g.all p = true) : g'.all p = true := by
  rw [List.all_eq_true] at hg ⊢
  intro c hc
  exact hg c (h.subset hc)

theorem allWS_of_suffix {g' g : List Char} (h : g' <:+ g) (hg : allWS g = true) :
    allWS g' = true := by
  simp only [allWS] at hg ⊢
  exact all_of_suffix h hg

theorem renders_suffix : ∀ {ss : List Seg} {r : List Char}, Renders ss r →
    ∀ {v : List Char}, v <:+ r → v ≠ [] →
      ∃ ss', ss' ∈ segTails ss ∧ Renders ss' v := by
  intro ss r hr
  induction hr with
  | nil =>
    intro v hv hvne
    rw [List.suffix_nil] at hv
    exact absurd hv hvne
  | conc c ss2 r2 hr2 ih =>
    intro v hv hvne
    cases suffix_append_cases hv with
    | inl h =>
      obtain ⟨ss', hm, hrr⟩ := ih h hvne
      refine ⟨ss', ?_, hrr⟩
      show ss' ∈ segTails (Seg.conc c :: ss2)
      simp only [segTails, List.mem_append]
      exact Or.inr hm
    | inr h =>
      obtain ⟨c', hc1, hc2, hc3⟩ := h
      refine ⟨Seg.conc c' :: ss2, ?_, ?_⟩
      · show Seg.conc c' :: ss2 ∈ segTails (Seg.conc c :: ss2)
        simp only [segTails, List.mem_append]
        left
        simp only [List.mem_map, List.mem_filter]
        exact ⟨c', ⟨(List.mem_tails _ _).mpr hc1, by simp [hc2]⟩, rfl⟩
      · rw [hc3]; exact Renders.conc c' ss2 r2 hr2
  | gap g ss2 r2 hgne hgws hr2 ih =>
    intro v hv hvne
    cases suffix_append_cases hv with
    | inl h =>
      obtain ⟨ss', hm, hrr⟩ := ih h hvne
      exact ⟨ss', by simp only [segTails, List.mem_cons]; exact Or.inr hm, hrr⟩
    | inr h =>
      obtain ⟨g', hg1, hg2, hg3⟩ := h
      refine ⟨Seg.gap0 :: ss2, by simp [segTails], ?_⟩
      rw [hg3]
      exact Renders.gap0 g' ss2 r2 (allWS_of_suffix hg1 hgws) hr2
  | gap0 g ss2 r2 hgws hr2 ih =>
    intro v hv hvne
    cases suffix_append_cases hv with
    | inl h =>
      obtain ⟨ss', hm, hrr⟩ := ih h hvne
      exact ⟨ss', by simp only [segTails, List.mem_cons]; exact Or.inr hm, hrr⟩
    | inr h =>
      obtain ⟨g', hg1, hg2, hg3⟩ := h
      refine ⟨Seg.gap0 :: ss2, by simp [segTails], ?_⟩
      rw [hg3]
      exact Renders.gap0 g' ss2 r2 (allWS_of_suffix hg1 hgws) hr2
  | blob g ss2 r2 hgne hgnb hr2 ih =>
    intro v hv hvne
    cases suffix_append_cases hv with
    | inl h =>
      obtain ⟨ss', hm, hrr⟩ := ih h hvne
      exact ⟨ss', by simp only [segTails, List.mem_cons]; exact Or.inr hm, hrr⟩
    | inr h =>
      obtain ⟨g', hg1, hg2, hg3⟩ := h
      refine ⟨Seg.blob :: ss2, by simp [segTails], ?_⟩
      rw [hg3]
      exact Renders.blob g' ss2 r2 hg2 (all_of_suffix hg1 hgnb) hr2
  | blob0 g ss2 r2 hgnb hr2 ih =>
    intro v hv hvne
    cases suffix_append_cases hv with
    | inl h =>
      obtain ⟨ss', hm, hrr⟩ := ih h hvne
      exact ⟨ss', by simp only [segTails, List.mem_cons]; exact Or.inr hm, hrr⟩
    | inr h =>
      obtain ⟨g', hg1, hg2, hg3⟩ := h
      refine ⟨Seg.blob0 :: ss2, by simp [segTails], ?_⟩
      rw [hg3]
      exact Renders.blob0 g' ss2 r2 (all_of_suffix hg1 hgnb) hr2

/-! ## State validity: closure under matcher steps and enumeration -/

theorem stok_step_down {p : List RItem} {it : RItem} {is : List RItem}
    (h : StOK p (it :: is)) : StOK p is := by
  cases h with
  | top => exact StOK.sfx _ (List.suffix_refl p)
  | sfx _ hs => exact StOK.sfx _ ((List.suffix_cons it is).trans hs)
  | litPart l r _ hs _ _ => exact StOK.sfx _ ((List.suffix_cons _ _).trans hs)
  | nbs _ hs => exact StOK.sfx _ ((List.suffix_cons _ _).trans hs)

theorem stok_lit_tail {p : List RItem} {a : Char} {as : List Char} {is : List RItem}
    (h : StOK p (RItem.lit (a :: as) :: is)) (hne : as ≠ []) :
    StOK p (RItem.lit as :: is) := by
  cases h with
  | sfx _ hs => exact StOK.litPart (a :: as) as is hs (List.suffix_cons a as) hne
  | litPart l r _ hs hr hrne =>
    exact StOK.litPart l as is hs ((List.suffix_cons a as).trans hr) hne

theorem stok_nbP_to_nbS {p : List RItem} {is : List RItem}
    (h : StOK p (RItem.nbPlus :: is)) : StOK p (RItem.nbStar :: is) := by
  cases h with
  | sfx _ hs => exact StOK.nbs is hs

theorem stok_lit_empty {p : List RItem} {is : List RItem}
    (hg : GoodPat p) (h : StOK p (RItem.lit [] :: is)) : False := by
  cases h with
  | sfx _ hs => exact hg [] (hs.subset (List.mem_cons_self _ _)) rfl
  | litPart l r _ hs hr hrne => exact hrne rfl

theorem suffix_mem_allStates : ∀ {p is : List RItem}, is <:+ p → is ≠ [] →
    GoodPat p → is ∈ allStates p := by
  intro p
  induction p with
  | nil =>
    intro is h hne _
    rw [List.suffix_nil] at h
    exact absurd h hne
  | cons it p' ih =>
    intro is h hne hg
    rw [List.suffix_cons_iff] at h
    cases h with
    | inl h =>
      subst h
      cases it with
      | lit l =>
        have hl : l ≠ [] := hg l (List.mem_cons_self _ _)
        show _ ∈ litTails l p' ++ allStates p'
        refine List.mem_append_left _ ?_
        simp only [litTails, List.mem_map, List.mem_filter]
        exact ⟨l, ⟨(List.mem_tails _ _).mpr (List.suffix_refl l), by simp [hl]⟩, rfl⟩
      | wsStar => exact List.mem_cons_self _ _
      | nbPlus => exact List.mem_cons_self _ _
      | nbStar => exact List.mem_cons_self _ _
    | inr h =>
      have hg' : GoodPat p' := fun l hm => hg l (List.mem_cons_of_mem _ hm)
      have hmem := ih h hne hg'
      cases it with
      | lit l => exact List.mem_append_right _ hmem
      | wsStar => exact List.mem_cons_of_mem _ hmem
      | nbPlus => exact List.mem_cons_of_mem _ (List.mem_cons_of_mem _ hmem)
      | nbStar => exact List.mem_cons_of_mem _ hmem

theorem litPart_mem_allStates : ∀ {p : List RItem} {l r : List Char} {is : List RItem},
    (RItem.lit l :: is) <:+ p → r <:+ l → r ≠ [] → (RItem.lit r :: is) ∈ allStates p := by
  intro p
  induction p with
  | nil =>
    intro l r is h _ _
    rw [List.suffix_nil] at h
    exact absurd h (by simp)
  | cons it p' ih =>
    intro l r is h hr hrne
    rw [List.suffix_cons_iff] at h
    cases h with
    | inl h =>
      obtain ⟨h1, h2⟩ := List.cons.inj h
      subst h1
      subst h2
      show _ ∈ litTails l is ++ allStates is
      refine List.mem_append_left _ ?_
      simp only [litTails, List.mem_map, List.mem_filter]
      exact ⟨r, ⟨(List.mem_tails _ _).mpr hr, by simp [hrne]⟩, rfl⟩
    | inr h =>
      have hmem := ih h hr hrne
      cases it with
      | lit l2 => exact List.mem_append_right _ hmem
      | wsStar => exact List.mem_cons_of_mem _ hmem
      | nbPlus => exact List.mem_cons_of_mem _ (List.mem_cons_of_mem _ hmem)
      | nbStar => exact List.mem_cons_of_mem _ hmem

theorem nbs_mem_allStates : ∀ {p : List RItem} {is : List RItem},
    (RItem.nbPlus :: is) <:+ p → (RItem.nbStar :: is) ∈ allStates p := by
  intro p
  induction p with
  | nil =>
    intro is h
    rw [List.suffix_nil] at h
    exact absurd h (by simp)
  | cons it p' ih =>
    intro is h
    rw [List.suffix_cons_iff] at h
    cases h with
    | inl h =>
      obtain ⟨h1, h2⟩ := List.cons.inj h
      subst h2
      rw [← h1]
      exact List.mem_cons_of_mem _ (List.mem_cons_self _ _)
    | inr h =>
      have hmem := ih h
      cases it with
      | lit l2 => exact List.mem_append_right _ hmem
      | wsStar => exact List.mem_cons_of_mem _ hmem
      | nbPlus => exact List.mem_cons_of_mem _ (List.mem_cons_of_mem _ hmem)
      | nbStar => exact List.mem_cons_of_mem _ hmem

theorem stok_mem_hstates {p σ : List RItem} (h : StOK p σ) (hne : σ ≠ [])
    (hg : GoodPat p) : σ ∈ hstates p := by
  cases h with
  | top => exact List.mem_cons_self _ _
  | sfx is hs => exact List.mem_cons_of_mem _ (suffix_mem_allStates hs hne hg)
  | litPart l r is hs hr hrne =>
    exact List.mem_cons_of_mem _ (litPart_mem_allStates hs hr hrne)
  | nbs is hs => exact List.mem_cons_of_mem _ (nbs_mem_allStates hs)

theorem dead_from_engine {p : List RItem} {segs : List Seg}
    (hall : (hstates p).all (fun σ => symMatchF engineFuel σ segs) = true)
    (hg : GoodPat p) :
    ∀ σ, StOK p σ → σ ≠ [] → ∀ r, Renders segs r → ∀ z, matchItems σ (r ++ z) = none := by
  intro σ hok hne r hr z
  have hmem := stok_mem_hstates hok hne hg
  have heng := List.all_eq_true.mp hall σ hmem
  exact symMatchF_sound engineFuel σ segs heng r hr z

/-! ## A failing match attempt stays failing after substitution elsewhere -/

theorem matchItems_sub_preserved
    {pat : List RItem}
    {mQ : List Char → Option (List Char × List Char)}
    {expQ : List Char → List Char}
    (hgood : GoodPat pat)
    (hshr : Shrinks mQ)
    (hcap : ∀ c cs cap rest, mQ (c :: cs) = some (cap, rest) → allWS cap = true ∧ cap ≠ [])
    (hdead : ∀ σ, StOK pat σ → σ ≠ [] → ∀ cap, allWS cap = true → cap ≠ [] →
      ∀ z, matchItems σ (expQ cap ++ z) = none) :
    ∀ n σ s, s.length ≤ n → StOK pat σ →
      matchItems σ s = none → matchItems σ (reSub mQ expQ s) = none := by
  intro n
  induction n with
  | zero =>
    intro σ s hl hok hnone
    have hs : s = [] := List.length_eq_zero.mp (Nat.le_zero.mp hl)
    subst hs
    exact hnone
  | succ n ihn =>
    intro σ
    induction σ with
    | nil =>
      intro s _ _ hnone
      rw [matchItems_nil_items] at hnone
      cases hnone
    | cons it is ihσ =>
      intro s hl hok hnone
      cases s with
      | nil => exact hnone
      | cons c cs =>
        have hlcs : cs.length ≤ n := by simp only [List.length_cons] at hl; omega
        cases hm : mQ (c :: cs) with
        | some pr =>
          obtain ⟨cap, rest⟩ := pr
          rw [reSub_cons_some hshr hm]
          obtain ⟨hcw, hcne⟩ := hcap c cs cap rest hm
          exact hdead (it :: is) hok (by simp) cap hcw hcne _
        | none =>
          rw [reSub_cons_none hm]
          cases it with
          | lit l =>
            cases l with
            | nil => exact (stok_lit_empty hgood hok).elim
            | cons a as =>
              rw [matchItems_lit_cons] at hnone ⊢
              by_cases hac : a == c
              · rw [if_pos hac] at hnone ⊢
                cases as with
                | nil =>
                  rw [matchItems_lit_nil] at hnone ⊢
                  cases is with
                  | nil => rw [matchItems_nil_items] at hnone; cases hnone
                  | cons it2 is2 =>
                    exact ihn (it2 :: is2) cs hlcs (stok_step_down hok) hnone
                | cons a2 as2 =>
                  exact ihn _ cs hlcs (stok_lit_tail hok (by simp)) hnone
              · rw [if_neg hac]
          | wsStar =>
            rw [matchItems_ws_cons] at hnone ⊢
            by_cases hw : isWS c
            · rw [if_pos hw] at hnone ⊢
              exact ihn _ cs hlcs hok hnone
            · rw [if_neg hw] at hnone ⊢
              have hres := ihσ (c :: cs) hl (stok_step_down hok) hnone
              rwa [reSub_cons_none hm] at hres
          | nbPlus =>
            rw [matchItems_nbP_cons] at hnone ⊢
            by_cases hnb : notRB c
            · rw [if_pos hnb] at hnone ⊢
              exact ihn _ cs hlcs (stok_nbP_to_nbS hok) hnone
            · rw [if_neg hnb]
          | nbStar =>
            rw [matchItems_nbS_cons] at hnone ⊢
            by_cases hnb : notRB c
            · rw [if_pos hnb] at hnone ⊢
              exact ihn _ cs hlcs hok hnone
            · rw [if_neg hnb] at hnone ⊢
              have hres := ihσ (c :: cs) hl (stok_step_down hok) hnone
              rwa [reSub_cons_none hm] at hres

/-! ## No position of the scan's output hosts a match -/

theorem singleton_suffix_concat {α : Type} {x a : α} {u : List α}
    (h : [x] <:+ u ++ [a]) : x = a := by
  obtain ⟨w, hw⟩ := h
  have h2 := congrArg List.getLast? hw
  simp at h2
  exact h2

theorem allPos_mono {m : List Char → Option (List Char × List Char)} {t v : List Char}
    (h : v <:+ t) (hap : AllPos m t) : AllPos m v :=
  fun w hw => hap w (hw.trans h)

theorem noMatchAll_of_allPos {m : List Char → Option (List Char × List Char)} :
    ∀ {t : List Char}, AllPos m t → noMatchAll m t = true := by
  intro t
  induction t with
  | nil => intro _; rfl
  | cons c cs ih =>
    intro h
    simp only [noMatchAll, Bool.and_eq_true, Option.isNone_iff_eq_none]
    exact ⟨h _ (List.suffix_refl _), ih (allPos_mono (List.suffix_cons c cs) h)⟩

set_option maxHeartbeats 1000000 in
theorem allPos_reSub
    {pat : List RItem}
    {mQ : List Char → Option (List Char × List Char)}
    {expQ : List Char → List Char}
    (hgood : GoodPat pat) (hshr : Shrinks mQ) (hcons : Consumes mQ)
    (hcap : ∀ c cs cap rest, mQ (c :: cs) = some (cap, rest) → allWS cap = true ∧ cap ≠ [])
    (hdead : ∀ σ, StOK pat σ → σ ≠ [] → ∀ cap, allWS cap = true → cap ≠ [] →
      ∀ z, matchItems σ (expQ cap ++ z) = none)
    (hsuf : ∀ cap, allWS cap = true → cap ≠ [] → ∀ v, v <:+ expQ cap → v ≠ [] →
      ∀ z, matchItems (RItem.wsStar :: pat) (v ++ z) = none)
    (hend : ∀ cap, ∃ u, expQ cap = u ++ [rbrace]) :
    ∀ n s, s.length ≤ n → (∀ v, v <:+ s → matchHead pat v = none ∨ mQ v ≠ none) →
      AllPos (matchHead pat) (reSub mQ expQ s) := by
  intro n
  induction n with
  | zero =>
    intro s hl _
    have hs : s = [] := List.length_eq_zero.mp (Nat.le_zero.mp hl)
    subst hs
    intro v hv
    have hnil : reSub mQ expQ [] = [] := rfl
    rw [hnil, List.suffix_nil] at hv
    subst hv
    rfl
  | succ n ihn =>
    intro s hl hdisp
    cases s with
    | nil =>
      intro v hv
      have hnil : reSub mQ expQ [] = [] := rfl
      rw [hnil, List.suffix_nil] at hv
      subst hv
      rfl
    | cons c cs =>
      have hlcs : cs.length ≤ n := by simp only [List.length_cons] at hl; omega
      cases hm : mQ (c :: cs) with
      | none =>
        rw [reSub_cons_none hm]
        intro v hv
        rw [List.suffix_cons_iff] at hv
        cases hv with
        | inr hv =>
          exact ihn cs hlcs
            (fun v' hv' => hdisp v' (hv'.trans (List.suffix_cons c cs))) v hv
        | inl hv =>
          subst hv
          cases hdisp (c :: cs) (List.suffix_refl _) with
          | inr hdq => exact absurd hm hdq
          | inl hnone =>
            by_cases hw : isWS c
            · have hitems : matchItems (RItem.wsStar :: pat) cs = none :=
                (matchHead_ws hw).mp hnone
              have hres := matchItems_sub_preserved hgood hshr hcap hdead cs.length
                (RItem.wsStar :: pat) cs (le_refl _) StOK.top hitems
              exact (matchHead_ws hw).mpr hres
            · exact matchHead_not_ws (bfalse hw)
      | some pr =>
        obtain ⟨cap, rest⟩ := pr
        obtain ⟨hcw, hcne⟩ := hcap _ _ _ _ hm
        obtain ⟨w, hwne, hww⟩ := hcons _ _ _ _ hm
        have hrest_suffix : rest <:+ c :: cs := ⟨w, hww.symm⟩
        have hrl : rest.length ≤ cs.length := hshr _ _ _ _ hm
        rw [reSub_cons_some hshr hm]
        intro v hv
        cases suffix_append_cases hv with
        | inl hv2 =>
          exact ihn rest (le_trans hrl hlcs)
            (fun v' hv' => hdisp v' (hv'.trans hrest_suffix)) v hv2
        | inr hv2 =>
          obtain ⟨s', hs1, hs2, hs3⟩ := hv2
          subst hs3
          cases s' with
          | nil => exact absurd rfl hs2
          | cons c0 s2 =>
            rw [List.cons_append]
            by_cases hwc : isWS c0
            · refine (matchHead_ws hwc).mpr ?_
              cases s2 with
              | nil =>
                obtain ⟨u, hu⟩ := hend cap
                rw [hu] at hs1
                have hc0 : c0 = rbrace := singleton_suffix_concat hs1
                rw [hc0] at hwc
                exact absurd hwc (by decide)
              | cons d ds =>
                have hs2' : (d :: ds) <:+ expQ cap :=
                  (List.suffix_cons c0 (d :: ds)).trans hs1
                exact hsuf cap hcw hcne (d :: ds) hs2' (by simp) _
            · exact matchHead_not_ws (bfalse hwc)

/-! ## Instantiation at the two rules -/

theorem goodPat_of_check {p : List RItem}
    (h : p.all (fun it =>
      match it with
      | RItem.lit l => !l.isEmpty
      | _ => true) = true) : GoodPat p := by
  intro l hm
  have h2 := List.all_eq_true.mp h _ hm
  simpa using h2

theorem goodA : GoodPat old_pattern := goodPat_of_check (by decide)

theorem goodB : GoodPat engine_old_pattern := goodPat_of_check (by decide)

theorem matchHead_capOK {items : List RItem} {c : Char} {cs cap rest : List Char}
    (h : matchHead items (c :: cs) = some (cap, rest)) :
    allWS cap = true ∧ cap ≠ [] := by
  obtain ⟨h1, h2, _⟩ := matchHead_cap h
  subst h1
  refine ⟨allWS_takeWhile _, ?_⟩
  rw [List.takeWhile_cons, if_pos h2]
  simp

theorem hcapA : ∀ c cs cap rest, matchA (c :: cs) = some (cap, rest) →
    allWS cap = true ∧ cap ≠ [] := fun _ _ _ _ h => matchHead_capOK h

theorem hcapB : ∀ c cs cap rest, matchB (c :: cs) = some (cap, rest) →
    allWS cap = true ∧ cap ≠ [] := fun _ _ _ _ h => matchHead_capOK h

set_option maxRecDepth 1000000 in
theorem engineA_RA :
    (hstates old_pattern).all (fun σ => symMatchF engineFuel σ segsRA) = true := by decide

set_option maxRecDepth 1000000 in
theorem engineA_RB :
    (hstates old_pattern).all (fun σ => symMatchF engineFuel σ segsRB) = true := by decide

set_option maxRecDepth 1000000 in
theorem engineB_RA :
    (hstates engine_old_pattern).all (fun σ => symMatchF engineFuel σ segsRA) = true := by decide

set_option maxRecDepth 1000000 in
theorem engineB_RB :
    (hstates engine_old_pattern).all (fun σ => symMatchF engineFuel σ segsRB) = true := by decide

set_option maxRecDepth 1000000 in
theorem sufEngineA_RA :
    (segTails segsRA).all (fun ss => symMatchF engineFuel (RItem.wsStar :: old_pattern) ss) =
      true := by decide

set_option maxRecDepth 1000000 in
theorem sufEngineA_RB :
    (segTails segsRB).all (fun ss => symMatchF engineFuel (RItem.wsStar :: old_pattern) ss) =
      true := by decide

set_option maxRecDepth 1000000 in
theorem sufEngineB_RA :
    (segTails segsRA).all
      (fun ss => symMatchF engineFuel (RItem.wsStar :: engine_old_pattern) ss) = true := by
  decide

set_option maxRecDepth 1000000 in
theorem sufEngineB_RB :
    (segTails segsRB).all
      (fun ss => symMatchF engineFuel (RItem.wsStar :: engine_old_pattern) ss) = true := by
  decide

theorem hdeadA_RA : ∀ σ, StOK old_pattern σ → σ ≠ [] → ∀ cap, allWS cap = true →
    cap ≠ [] → ∀ z, matchItems σ (expandA cap ++ z) = none :=
  fun σ hok hne _cap hw hne2 z =>
    dead_from_engine engineA_RA goodA σ hok hne _
      (renders_expandTmpl new_pattern hne2 hw) z

theorem hdeadA_RB : ∀ σ, StOK old_pattern σ → σ ≠ [] → ∀ cap, allWS cap = true →
    cap ≠ [] → ∀ z, matchItems σ (expandB cap ++ z) = none :=
  fun σ hok hne _cap hw hne2 z =>
    dead_from_engine engineA_RB goodA σ hok hne _
      (renders_expandTmpl engine_new_pattern hne2 hw) z

theorem hdeadB_RA : ∀ σ, StOK engine_old_pattern σ → σ ≠ [] → ∀ cap, allWS cap = true →
    cap ≠ [] → ∀ z, matchItems σ (expandA cap ++ z) = none :=
  fun σ hok hne _cap hw hne2 z =>
    dead_from_engine engineB_RA goodB σ hok hne _
      (renders_expandTmpl new_pattern hne2 hw) z

theorem hdeadB_RB : ∀ σ, StOK engine_old_pattern σ → σ ≠ [] → ∀ cap, allWS cap = true →
    cap ≠ [] → ∀ z, matchItems σ (expandB cap ++ z) = none :=
  fun σ hok hne _cap hw hne2 z =>
    dead_from_engine engineB_RB goodB σ hok hne _
      (renders_expandTmpl engine_new_pattern hne2 hw) z

theorem hsufA_RA : ∀ cap, allWS cap = true → cap ≠ [] → ∀ v, v <:+ expandA cap →
    v ≠ [] → ∀ z, matchItems (RItem.wsStar :: old_pattern) (v ++ z) = none := by
  intro cap hw hne v hv hvne z
  obtain ⟨ss', hmem, hrr⟩ := renders_suffix (renders_expandTmpl new_pattern hne hw) hv hvne
  exact symMatchF_sound engineFuel _ ss' (List.all_eq_true.mp sufEngineA_RA ss' hmem) v hrr z

theorem hsufA_RB : ∀ cap, allWS cap = true → cap ≠ [] → ∀ v, v <:+ expandB cap →
    v ≠ [] → ∀ z, matchItems (RItem.wsStar :: old_pattern) (v ++ z) = none := by
  intro cap hw hne v hv hvne z
  obtain ⟨ss', hmem, hrr⟩ :=
    renders_suffix (renders_expandTmpl engine_new_pattern hne hw) hv hvne
  exact symMatchF_sound engineFuel _ ss' (List.all_eq_true.mp sufEngineA_RB ss' hmem) v hrr z

theorem hsufB_RA : ∀ cap, allWS cap = true → cap ≠ [] → ∀ v, v <:+ expandA cap →
    v ≠ [] → ∀ z, matchItems (RItem.wsStar :: engine_old_pattern) (v ++ z) = none := by
  intro cap hw hne v hv hvne z
  obtain ⟨ss', hmem, hrr⟩ := renders_suffix (renders_expandTmpl new_pattern hne hw) hv hvne
  exact symMatchF_sound engineFuel _ ss' (List.all_eq_true.mp sufEngineB_RA ss' hmem) v hrr z

theorem hsufB_RB : ∀ cap, allWS cap = true → cap ≠ [] → ∀ v, v <:+ expandB cap →
    v ≠ [] → ∀ z, matchItems (RItem.wsStar :: engine_old_pattern) (v ++ z) = none := by
  intro cap hw hne v hv hvne z
  obtain ⟨ss', hmem, hrr⟩ :=
    renders_suffix (renders_expandTmpl engine_new_pattern hne hw) hv hvne
  exact symMatchF_sound engineFuel _ ss' (List.all_eq_true.mp sufEngineB_RB ss' hmem) v hrr z

/-- Rule A's own output contains no rule-A match at any position. -/
theorem allPos_subA (s : List Char) : AllPos matchA (subA s) := by
  refine allPos_reSub goodA shrinks_matchA consumes_matchA hcapA hdeadA_RA hsufA_RA
    (fun cap => expandA_ends cap) s.length s (le_refl _) ?_
  intro v _
  cases hq : matchA v with
  | none => exact Or.inl hq
  | some pr => exact Or.inr (by simp [hq])

/-- Rule B's own output contains no rule-B match at any position. -/
theorem allPos_subB (s : List Char) : AllPos matchB (subB s) := by
  refine allPos_reSub goodB shrinks_matchB consumes_matchB hcapB hdeadB_RB hsufB_RB
    (fun cap => expandB_ends cap) s.length s (le_refl _) ?_
  intro v _
  cases hq : matchB v with
  | none => exact Or.inl hq
  | some pr => exact Or.inr (by simp [hq])

/-- Rule B's pass preserves rule-A-match-freeness. -/
theorem allPos_A_subB {t : List Char} (h : AllPos matchA t) : AllPos matchA (subB t) := by
  refine allPos_reSub goodA shrinks_matchB consumes_matchB hcapB hdeadA_RB hsufA_RB
    (fun cap => expandB_ends cap) t.length t (le_refl _) ?_
  intro v hv
  exact Or.inl (h v hv)

/-- Rule A's pass preserves rule-B-match-freeness. -/
theorem allPos_B_subA {t : List Char} (h : AllPos matchB t) : AllPos matchB (subA t) := by
  refine allPos_reSub goodB shrinks_matchA consumes_matchA hcapA hdeadB_RA hsufB_RA
    (fun cap => expandA_ends cap) t.length t (le_refl _) ?_
  intro v hv
  exact Or.inl (h v hv)

theorem subA_id_of_noMatch {t : List Char} (h : noMatchAll matchA t = true) :
    subA t = t := reSub_id_of_noMatch h

theorem subB_id_of_noMatch {t : List Char} (h : noMatchAll matchB t = true) :
    subB t = t := reSub_id_of_noMatch h

/-- C3: the transform (rule A then rule B) is idempotent on every input:
its output contains no occurrence of either pattern at any position, so a
second application changes nothing, the second run reports
`No changes needed:` and does not write. -/
theorem c3_transform_idempotent (s : List Char) :
    transform (transform s) = transform s ∧
    fix_test_file (transform s) = (transform s, false) ∧
    ∀ path, fixMessage path (fix_test_file (transform s)).2 =
      "No changes needed: " ++ path := by
  have h1 : AllPos matchA (subA s) := allPos_subA s
  have h2 : AllPos matchA (subB (subA s)) := allPos_A_subB h1
  have h3 : AllPos matchB (subB (subA s)) := allPos_subB (subA s)
  have hT : transform (transform s) = transform s := by
    show subB (subA (subB (subA s))) = subB (subA s)
    rw [subA_id_of_noMatch (noMatchAll_of_allPos h2),
      subB_id_of_noMatch (noMatchAll_of_allPos h3)]
  refine ⟨hT, ?_, ?_⟩
  · unfold fix_test_file
    simp [hT]
  · intro path
    have hflag : (fix_test_file (transform s)).2 = false := by
      unfold fix_test_file
      simp [hT]
    simp [hflag, fixMessage]

/-! ## A successful match is determined by its consumed span -/

theorem takeWhile_all_append {p : Char → Bool} {u : List Char} (v : List Char)
    (h : u.all p = true) : (u ++ v).takeWhile p = u ++ v.takeWhile p := by
  induction u with
  | nil => rfl
  | cons c cs ih =>
    simp only [List.all_cons, Bool.and_eq_true] at h
    simp [List.takeWhile_cons, h.1, ih h.2]

theorem takeWhile_all {p : Char → Bool} (s : List Char) :
    (s.takeWhile p).all p = true := by
  induction s with
  | nil => rfl
  | cons c cs ih =>
    by_cases h : p c
    · simp [List.takeWhile_cons, h, ih]
    · simp [List.takeWhile_cons, h]

theorem matchItems_lit_inversion {l : List Char} {is : List RItem} {X r : List Char}
    (h : matchItems (RItem.lit l :: is) X = some r) :
    ∃ X2, X = l ++ X2 ∧ matchItems is X2 = some r := by
  rw [matchItems_lit] at h
  cases hd : dropLit l X with
  | none => rw [hd] at h; cases h
  | some X2 =>
    rw [hd] at h
    exact ⟨X2, dropLit_split l X X2 hd, h⟩

/-- The core determinacy result: under the `okChain` discipline a successful
anchored match of `is` on `X` consumes a span `w` that (a) decomposes `X`,
(b) is an instance of the item list's symbolic shape, and (c) yields the
same match on `w ++ y` for every continuation `y` — the run never looks
past its own span. -/
theorem matchItems_shape_replay : ∀ (is : List RItem), okChain is = true →
    ∀ (X r : List Char), matchItems is X = some r →
    ∃ w, X = w ++ r ∧ Renders (segsOfItems is) w ∧
      (∀ y, matchItems is (w ++ y) = some y) := by
  intro is
  induction is with
  | nil =>
    intro _ X r h
    rw [matchItems_nil_items] at h
    have hxr : X = r := Option.some.inj h
    subst hxr
    exact ⟨[], by simp, Renders.nil, fun y => by simp [matchItems_nil_items]⟩
  | cons it is' ih =>
    intro hok X r h
    cases it with
    | lit l =>
      have hq : okChain (RItem.lit l :: is') = (!l.isEmpty && okChain is') := rfl
      rw [hq, Bool.and_eq_true] at hok
      obtain ⟨X2, hX2, h2⟩ := matchItems_lit_inversion h
      obtain ⟨w2, hw2, hrr2, hrep2⟩ := ih hok.2 X2 r h2
      refine ⟨l ++ w2, by rw [hX2, hw2, List.append_assoc],
        Renders.conc l _ w2 hrr2, ?_⟩
      intro y
      rw [List.append_assoc, matchItems_lit]
      rw [dropLit_self_append]
      exact hrep2 y
    | wsStar =>
      cases is' with
      | nil =>
        rw [show okChain [RItem.wsStar] = false from rfl] at hok
        cases hok
      | cons it2 is2 =>
        cases it2 with
        | lit l2 =>
          cases l2 with
          | nil =>
            rw [show okChain (RItem.wsStar :: RItem.lit [] :: is2) = false from rfl] at hok
            cases hok
          | cons a as =>
            have hq : okChain (RItem.wsStar :: RItem.lit (a :: as) :: is2) =
                (!isWS a && okChain (RItem.lit (a :: as) :: is2)) := rfl
            rw [hq, Bool.and_eq_true, Bool.not_eq_true'] at hok
            rw [matchItems_ws] at h
            obtain ⟨w2, hw2, hrr2, hrep2⟩ := ih hok.2 (X.dropWhile isWS) r h
            refine ⟨X.takeWhile isWS ++ w2, ?_, ?_, ?_⟩
            · conv_lhs => rw [← List.takeWhile_append_dropWhile (p := isWS) (l := X)]
              rw [hw2, List.append_assoc]
            · exact Renders.gap0 _ _ w2 (allWS_takeWhile X) hrr2
            · intro y
              obtain ⟨w3, hw3⟩ : ∃ w3, w2 = (a :: as) ++ w3 := by
                cases hrr2 with
                | conc _ _ r3 _ => exact ⟨r3, rfl⟩
              rw [List.append_assoc, matchItems_ws,
                dropWhile_all_append _ (allWS_takeWhile X), hw3]
              rw [show ((a :: as) ++ w3) ++ y = a :: (as ++ (w3 ++ y)) by simp]
              rw [dropWhile_cons_neg hok.1]
              have hhh := hrep2 y
              rw [hw3] at hhh
              simpa using hhh
        | wsStar =>
          rw [show okChain (RItem.wsStar :: RItem.wsStar :: is2) = false from rfl] at hok
          cases hok
        | nbPlus =>
          rw [show okChain (RItem.wsStar :: RItem.nbPlus :: is2) = false from rfl] at hok
          cases hok
        | nbStar =>
          rw [show okChain (RItem.wsStar :: RItem.nbStar :: is2) = false from rfl] at hok
          cases hok
    | nbPlus =>
      cases is' with
      | nil =>
        rw [show okChain [RItem.nbPlus] = false from rfl] at hok
        cases hok
      | cons it2 is2 =>
        cases it2 with
        | lit l2 =>
          cases l2 with
          | nil =>
            rw [show okChain (RItem.nbPlus :: RItem.lit [] :: is2) = false from rfl] at hok
            cases hok
          | cons a as =>
            have hq : okChain (RItem.nbPlus :: RItem.lit (a :: as) :: is2) =
                ((a == rbrace) && okChain (RItem.lit (a :: as) :: is2)) := rfl
            rw [hq, Bool.and_eq_true] at hok
            have ha : a = rbrace := eq_of_beq hok.1
            cases X with
            | nil => rw [matchItems_nbP_nil] at h; cases h
            | cons c cs =>
              rw [matchItems_nbP] at h
              by_cases hc : notRB c
              · rw [if_pos hc] at h
                obtain ⟨w2, hw2, hrr2, hrep2⟩ :=
                  ih hok.2 ((c :: cs).dropWhile notRB) r h
                have htk : (c :: cs).takeWhile notRB = c :: cs.takeWhile notRB := by
                  simp [List.takeWhile_cons, hc]
                refine ⟨(c :: cs).takeWhile notRB ++ w2, ?_, ?_, ?_⟩
                · conv_lhs =>
                    rw [← List.takeWhile_append_dropWhile (p := notRB) (l := c :: cs)]
                  rw [hw2, List.append_assoc]
                · refine Renders.blob _ _ w2 ?_ (takeWhile_all (c :: cs)) hrr2
                  rw [htk]
                  simp
                · intro y
                  obtain ⟨w3, hw3⟩ : ∃ w3, w2 = (a :: as) ++ w3 := by
                    cases hrr2 with
                    | conc _ _ r3 _ => exact ⟨r3, rfl⟩
                  rw [List.append_assoc, htk, List.cons_append, matchItems_nbP_cons,
                    if_pos hc, matchItems_nbS_all_append _ _ (takeWhile_all cs), hw3]
                  rw [show ((a :: as) ++ w3) ++ y = a :: (as ++ (w3 ++ y)) by simp]
                  rw [matchItems_nbS_cons, if_neg (by rw [ha]; decide)]
                  have hhh := hrep2 y
                  rw [hw3] at hhh
                  simpa using hhh
              · rw [if_neg hc] at h; cases h
        | wsStar =>
          rw [show okChain (RItem.nbPlus :: RItem.wsStar :: is2) = false from rfl] at hok
          cases hok
        | nbPlus =>
          rw [show okChain (RItem.nbPlus :: RItem.nbPlus :: is2) = false from rfl] at hok
          cases hok
        | nbStar =>
          rw [show okChain (RItem.nbPlus :: RItem.nbStar :: is2) = false from rfl] at hok
          cases hok
    | nbStar =>
      rw [show okChain (RItem.nbStar :: is') = false from rfl] at hok
      cases hok

theorem matchHead_build {items : List RItem} {cap X r : List Char} {d : Char}
    {ds : List Char} (hcne : cap ≠ []) (hcw : allWS cap = true) (hX : X = d :: ds)
    (hd : isWS d = false) (hm : matchItems items X = some r) :
    matchHead items (cap ++ X) = some (cap, r) := by
  cases cap with
  | nil => exact absurd rfl hcne
  | cons c0 cap' =>
    obtain ⟨hws0, hcw'⟩ := allWS_tail hcw
    have hdw : ((c0 :: cap') ++ X).dropWhile isWS = X := by
      rw [dropWhile_all_append X hcw]
      rw [hX]
      exact dropWhile_cons_neg hd
    have htw : ((c0 :: cap') ++ X).takeWhile isWS = c0 :: cap' := by
      rw [takeWhile_all_append X hcw, hX, List.takeWhile_cons, if_neg (by simp [hd])]
      simp
    show matchHead items (c0 :: (cap' ++ X)) = some (c0 :: cap', r)
    simp only [matchHead, hws0, if_pos]
    rw [show List.dropWhile isWS (c0 :: (cap' ++ X)) = X from hdw]
    rw [hm]
    rw [show List.takeWhile isWS (c0 :: (cap' ++ X)) = c0 :: cap' from htw]

theorem matchHead_shape_replay {items : List RItem} (hok : okChain items = true)
    (hhead : ∃ a as is2, items = RItem.lit (a :: as) :: is2 ∧ isWS a = false)
    {z cap rest : List Char} (h : matchHead items z = some (cap, rest)) :
    ∃ w, z = w ++ rest ∧ Renders (Seg.gap :: segsOfItems items) w ∧
      ∀ y, matchHead items (w ++ y) = some (cap, y) := by
  cases z with
  | nil => cases h
  | cons c cs =>
    obtain ⟨hcap, hws, hitems⟩ := matchHead_cap h
    obtain ⟨hcapw, hcapne⟩ := matchHead_capOK h
    obtain ⟨w2, hw2, hrr2, hrep2⟩ := matchItems_shape_replay items hok _ rest hitems
    obtain ⟨a, as, is2, hitems_eq, ha⟩ := hhead
    have hw2head : ∃ w3, w2 = (a :: as) ++ w3 := by
      rw [hitems_eq] at hrr2
      cases hrr2 with
      | conc _ _ r3 _ => exact ⟨r3, rfl⟩
    obtain ⟨w3, hw3⟩ := hw2head
    refine ⟨cap ++ w2, ?_, ?_, ?_⟩
    · rw [hcap]
      conv_lhs => rw [← List.takeWhile_append_dropWhile (p := isWS) (l := c :: cs)]
      rw [hw2, List.append_assoc]
    · exact Renders.gap cap _ w2 hcapne hcapw hrr2
    · intro y
      rw [List.append_assoc]
      have hXeq : w2 ++ y = a :: (as ++ (w3 ++ y)) := by
        rw [hw3]
        simp
      exact matchHead_build hcapne hcapw hXeq ha (hrep2 y)
      
theorem okChainA : okChain old_pattern = true := by decide

theorem okChainB : okChain engine_old_pattern = true := by decide

theorem matchA_shape {z cap rest : List Char} (h : matchA z = some (cap, rest)) :
    ∃ w, z = w ++ rest ∧ Renders spanSegsA w ∧
      ∀ y, matchA (w ++ y) = some (cap, y) := by
  have hspan : Seg.gap :: segsOfItems old_pattern = spanSegsA := by decide
  have hhead : ∃ a as is2, old_pattern = RItem.lit (a :: as) :: is2 ∧ isWS a = false := by
    refine ⟨'m', "atch env_result \x7b".toList, old_pattern.tail, by decide, by decide⟩
  obtain ⟨w, hw1, hw2, hw3⟩ := matchHead_shape_replay okChainA hhead h
  rw [hspan] at hw2
  exact ⟨w, hw1, hw2, hw3⟩

theorem matchB_shape {z cap rest : List Char} (h : matchB z = some (cap, rest)) :
    ∃ w, z = w ++ rest ∧ Renders spanSegsB w ∧
      ∀ y, matchB (w ++ y) = some (cap, y) := by
  have hspan : Seg.gap :: segsOfItems engine_old_pattern = spanSegsB := by decide
  have hhead : ∃ a as is2, engine_old_pattern = RItem.lit (a :: as) :: is2 ∧
      isWS a = false := by
    refine ⟨'m', "atch engine_result \x7b".toList, engine_old_pattern.tail,
      by decide, by decide⟩
  obtain ⟨w, hw1, hw2, hw3⟩ := matchHead_shape_replay okChainB hhead h
  rw [hspan] at hw2
  exact ⟨w, hw1, hw2, hw3⟩

/-! ## No match of the other rule touches a matched span -/

theorem renders_concat_last : ∀ {ss : List Seg} {c : List Char} {w : List Char},
    Renders (ss ++ [Seg.conc c]) w → ∃ u, w = u ++ c := by
  intro ss
  induction ss with
  | nil =>
    intro c w h
    rw [List.nil_append] at h
    cases h with
    | conc _ _ r hr =>
      cases hr
      exact ⟨[], by simp⟩
  | cons sg ss' ih =>
    intro c w h
    rw [List.cons_append] at h
    cases h with
    | conc c2 _ r hr =>
      obtain ⟨u, hu⟩ := ih hr
      exact ⟨c2 ++ u, by rw [hu, List.append_assoc]⟩
    | gap g _ r _ _ hr =>
      obtain ⟨u, hu⟩ := ih hr
      exact ⟨g ++ u, by rw [hu, List.append_assoc]⟩
    | gap0 g _ r _ hr =>
      obtain ⟨u, hu⟩ := ih hr
      exact ⟨g ++ u, by rw [hu, List.append_assoc]⟩
    | blob g _ r _ _ hr =>
      obtain ⟨u, hu⟩ := ih hr
      exact ⟨g ++ u, by rw [hu, List.append_assoc]⟩
    | blob0 g _ r _ hr =>
      obtain ⟨u, hu⟩ := ih hr
      exact ⟨g ++ u, by rw [hu, List.append_assoc]⟩

theorem spanSegsA_split : spanSegsA = spanSegsA.dropLast ++ [Seg.conc [rbrace]] := by decide

theorem spanSegsB_split : spanSegsB = spanSegsB.dropLast ++ [Seg.conc [rbrace]] := by decide

theorem positions_dead {pat : List RItem} {w : List Char}
    (hend : ∃ u, w = u ++ [rbrace])
    (hsuf : ∀ v, v <:+ w → v ≠ [] → ∀ z,
      matchItems (RItem.wsStar :: pat) (v ++ z) = none) :
    ∀ v, v <:+ w → v ≠ [] → ∀ X, matchHead pat (v ++ X) = none := by
  intro v hv hvne X
  cases v with
  | nil => exact absurd rfl hvne
  | cons c0 s2 =>
    rw [List.cons_append]
    by_cases hwc : isWS c0
    · refine (matchHead_ws hwc).mpr ?_
      cases s2 with
      | nil =>
        obtain ⟨u, hu⟩ := hend
        rw [hu] at hv
        have hc0 : c0 = rbrace := singleton_suffix_concat hv
        rw [hc0] at hwc
        exact absurd hwc (by decide)
      | cons d ds =>
        exact hsuf (d :: ds) ((List.suffix_cons c0 _).trans hv) (by simp) X
    · exact matchHead_not_ws (bfalse hwc)

set_option maxRecDepth 1000000 in
theorem sufEngineB_spanA :
    (segTails spanSegsA).all
      (fun ss => symMatchF engineFuel (RItem.wsStar :: engine_old_pattern) ss) = true := by
  decide

set_option maxRecDepth 1000000 in
theorem sufEngineA_spanB :
    (segTails spanSegsB).all
      (fun ss => symMatchF engineFuel (RItem.wsStar :: old_pattern) ss) = true := by
  decide

/-- No rule-B match attempt succeeds at any position of a rule-A span. -/
theorem spanA_posB {w : List Char} (hr : Renders spanSegsA w) :
    ∀ v, v <:+ w → v ≠ [] → ∀ X, matchB (v ++ X) = none := by
  refine positions_dead ?_ ?_
  · exact renders_concat_last (by rw [← spanSegsA_split]; exact hr)
  · intro v hv hvne z
    obtain ⟨ss', hmem, hrr⟩ := renders_suffix hr hv hvne
    exact symMatchF_sound engineFuel _ ss'
      (List.all_eq_true.mp sufEngineB_spanA ss' hmem) v hrr z

/-- No rule-A match attempt succeeds at any position of a rule-B span. -/
theorem spanB_posA {w : List Char} (hr : Renders spanSegsB w) :
    ∀ v, v <:+ w → v ≠ [] → ∀ X, matchA (v ++ X) = none := by
  refine positions_dead ?_ ?_
  · exact renders_concat_last (by rw [← spanSegsB_split]; exact hr)
  · intro v hv hvne z
    obtain ⟨ss', hmem, hrr⟩ := renders_suffix hr hv hvne
    exact symMatchF_sound engineFuel _ ss'
      (List.all_eq_true.mp sufEngineA_spanB ss' hmem) v hrr z

/-! ## Passing over a dead region -/

theorem reSub_pass {mQ : List Char → Option (List Char × List Char)}
    {expQ : List Char → List Char} :
    ∀ {u X : List Char}, (∀ v, v <:+ u → v ≠ [] → mQ (v ++ X) = none) →
      reSub mQ expQ (u ++ X) = u ++ reSub mQ expQ X := by
  intro u
  induction u with
  | nil => intro X _; rfl
  | cons c u' ih =>
    intro X h
    have hnone : mQ ((c :: u') ++ X) = none :=
      h (c :: u') (List.suffix_refl _) (by simp)
    rw [List.cons_append] at hnone ⊢
    rw [reSub_cons_none hnone,
      ih (fun v hv hvne => h v (hv.trans (List.suffix_cons c u')) hvne)]
    rfl

/-! ## The two patterns cannot both match at one position -/

theorem dropLit_conflict : ∀ {l1 l2 : List Char}, litConflict l1 l2 = true →
    ∀ {s r1 r2 : List Char}, dropLit l1 s = some r1 → dropLit l2 s = some r2 → False := by
  intro l1
  induction l1 with
  | nil => intro l2 h; simp [litConflict] at h
  | cons a as ih =>
    intro l2 h s r1 r2 h1 h2
    cases l2 with
    | nil => simp [litConflict] at h
    | cons b bs =>
      cases s with
      | nil => simp [dropLit] at h1
      | cons c cs =>
        simp only [dropLit] at h1 h2
        by_cases hac : a == c
        · rw [if_pos hac] at h1
          by_cases hbc : b == c
          · rw [if_pos hbc] at h2
            have hq : litConflict (a :: as) (b :: bs) = (!(a == b) || litConflict as bs) :=
              rfl
            rw [hq, Bool.or_eq_true] at h
            cases h with
            | inl h =>
              have hab : a = b := by
                rw [eq_of_beq hac, eq_of_beq hbc]
              rw [hab] at h
              simp at h
            | inr h => exact ih h h1 h2
          · rw [if_neg hbc] at h2; cases h2
        · rw [if_neg hac] at h1; cases h1

theorem matchItems_lit_head_inv {l : List Char} {is : List RItem} {X r : List Char}
    (h : matchItems (RItem.lit l :: is) X = some r) : ∃ X2, dropLit l X = some X2 := by
  rw [matchItems_lit] at h
  cases hd : dropLit l X with
  | none => rw [hd] at h; cases h
  | some X2 => exact ⟨X2, rfl⟩

theorem excl_AB {s : List Char} {pr : List Char × List Char}
    (h : matchA s = some pr) : matchB s = none := by
  cases s with
  | nil => cases h
  | cons c cs =>
    obtain ⟨cap, rest⟩ := pr
    obtain ⟨_, hws, hitems⟩ := matchHead_cap h
    cases hq : matchB (c :: cs) with
    | none => rfl
    | some pr2 =>
      obtain ⟨cap2, rest2⟩ := pr2
      obtain ⟨_, _, hitems2⟩ := matchHead_cap hq
      obtain ⟨X2, hd1⟩ := matchItems_lit_head_inv hitems
      obtain ⟨X3, hd2⟩ := matchItems_lit_head_inv hitems2
      exact (dropLit_conflict (by decide) hd1 hd2).elim

theorem excl_BA {s : List Char} {pr : List Char × List Char}
    (h : matchB s = some pr) : matchA s = none := by
  cases s with
  | nil => cases h
  | cons c cs =>
    obtain ⟨cap, rest⟩ := pr
    obtain ⟨_, hws, hitems⟩ := matchHead_cap h
    cases hq : matchA (c :: cs) with
    | none => rfl
    | some pr2 =>
      obtain ⟨cap2, rest2⟩ := pr2
      obtain ⟨_, _, hitems2⟩ := matchHead_cap hq
      obtain ⟨X2, hd1⟩ := matchItems_lit_head_inv hitems
      obtain ⟨X3, hd2⟩ := matchItems_lit_head_inv hitems2
      exact (dropLit_conflict (by decide) hd1 hd2).elim

/-! ## Rule A and rule B commute -/

theorem expandA_deadB {cap : List Char} (hcw : allWS cap = true) (hcne : cap ≠ []) :
    ∀ v, v <:+ expandA cap → v ≠ [] → ∀ X, matchB (v ++ X) = none :=
  positions_dead (expandA_ends cap) (hsufB_RA cap hcw hcne)

theorem expandB_deadA {cap : List Char} (hcw : allWS cap = true) (hcne : cap ≠ []) :
    ∀ v, v <:+ expandB cap → v ≠ [] → ∀ X, matchA (v ++ X) = none :=
  positions_dead (expandB_ends cap) (hsufA_RB cap hcw hcne)

theorem matchB_none_preserved {c : Char} {cs : List Char}
    (h : matchB (c :: cs) = none) : matchB (c :: subA cs) = none := by
  by_cases hw : isWS c
  · have h1 : matchItems (RItem.wsStar :: engine_old_pattern) cs = none :=
      (matchHead_ws hw).mp h
    have h2 := matchItems_sub_preserved goodB shrinks_matchA hcapA hdeadB_RA
      cs.length (RItem.wsStar :: engine_old_pattern) cs (le_refl _) StOK.top h1
    exact (matchHead_ws hw).mpr h2
  · exact matchHead_not_ws (bfalse hw)

theorem matchA_none_preserved {c : Char} {cs : List Char}
    (h : matchA (c :: cs) = none) : matchA (c :: subB cs) = none := by
  by_cases hw : isWS c
  · have h1 : matchItems (RItem.wsStar :: old_pattern) cs = none :=
      (matchHead_ws hw).mp h
    have h2 := matchItems_sub_preserved goodA shrinks_matchB hcapB hdeadA_RB
      cs.length (RItem.wsStar :: old_pattern) cs (le_refl _) StOK.top h1
    exact (matchHead_ws hw).mpr h2
  · exact matchHead_not_ws (bfalse hw)

theorem matchA_nil : matchA [] = none := rfl

theorem matchB_nil : matchB [] = none := rfl

theorem span_nonempty {m : List Char → Option (List Char × List Char)}
    (hnil : m [] = none) {w cap : List Char}
    (hm : ∀ y, m (w ++ y) = some (cap, y)) : w ≠ [] := by
  intro h0
  have h2 := hm []
  rw [h0, List.nil_append, hnil] at h2
  cases h2

theorem comm_aux : ∀ n s, s.length ≤ n → subB (subA s) = subA (subB s) := by
  intro n
  induction n with
  | zero =>
    intro s hl
    have hs : s = [] := List.length_eq_zero.mp (Nat.le_zero.mp hl)
    subst hs
    rfl
  | succ n ih =>
    intro s hl
    cases s with
    | nil => rfl
    | cons c cs =>
      have hlcs : cs.length ≤ n := by simp only [List.length_cons] at hl; omega
      cases hA : matchA (c :: cs) with
      | some pr =>
        obtain ⟨cap, rest⟩ := pr
        have hB : matchB (c :: cs) = none := excl_AB hA
        obtain ⟨hcw, hcne⟩ := matchHead_capOK hA
        obtain ⟨w, hw1, hw2, hw3⟩ := matchA_shape hA
        have hrl : rest.length ≤ cs.length := matchHead_shrinks hA
        have hwne : w ≠ [] := span_nonempty matchA_nil hw3
        obtain ⟨a, w2, hww2⟩ : ∃ a w2, w = a :: w2 := by
          cases w with
          | nil => exact absurd rfl hwne
          | cons a w2 => exact ⟨a, w2, rfl⟩
        have hL1 : subA (c :: cs) = expandA cap ++ subA rest :=
          reSub_cons_some shrinks_matchA hA
        have hL2 : subB (expandA cap ++ subA rest) = expandA cap ++ subB (subA rest) :=
          reSub_pass (fun v hv hvne => expandA_deadB hcw hcne v hv hvne (subA rest))
        have hR1 : subB (c :: cs) = w ++ subB rest := by
          rw [hw1]
          exact reSub_pass (fun v hv hvne => spanA_posB hw2 v hv hvne rest)
        have hmA2 : matchA (a :: (w2 ++ subB rest)) = some (cap, subB rest) := by
          have h2 := hw3 (subB rest)
          rw [hww2, List.cons_append] at h2
          exact h2
        have hR2 : subA (w ++ subB rest) = expandA cap ++ subA (subB rest) := by
          rw [hww2, List.cons_append]
          exact reSub_cons_some shrinks_matchA hmA2
        calc subB (subA (c :: cs))
            = expandA cap ++ subB (subA rest) := by rw [hL1, hL2]
          _ = expandA cap ++ subA (subB rest) := by
              rw [ih rest (le_trans hrl hlcs)]
          _ = subA (w ++ subB rest) := hR2.symm
          _ = subA (subB (c :: cs)) := by rw [hR1]
      | none =>
        cases hB : matchB (c :: cs) with
        | some pr =>
          obtain ⟨cap, rest⟩ := pr
          obtain ⟨hcw, hcne⟩ := matchHead_capOK hB
          obtain ⟨w, hw1, hw2, hw3⟩ := matchB_shape hB
          have hrl : rest.length ≤ cs.length := matchHead_shrinks hB
          have hwne : w ≠ [] := span_nonempty matchB_nil hw3
          obtain ⟨a, w2, hww2⟩ : ∃ a w2, w = a :: w2 := by
            cases w with
            | nil => exact absurd rfl hwne
            | cons a w2 => exact ⟨a, w2, rfl⟩
          have hL1 : subB (c :: cs) = expandB cap ++ subB rest :=
            reSub_cons_some shrinks_matchB hB
        
          have hL2 : subA (expandB cap ++ subB rest) = expandB cap ++ subA (subB rest) :=
            reSub_pass (fun v hv hvne => expandB_deadA hcw hcne v hv hvne (subB rest))
          have hR1 : subA (c :: cs) = w ++ subA rest := by
            rw [hw1]
            exact reSub_pass (fun v hv hvne => spanB_posA hw2 v hv hvne rest)
          have hmB2 : matchB (a :: (w2 ++ subA rest)) = some (cap, subA rest) := by
            have h2 := hw3 (subA rest)
            rw [hww2, List.cons_append] at h2
            exact h2
          have hR2 : subB (w ++ subA rest) = expandB cap ++ subB (subA rest) := by
            rw [hww2, List.cons_append]
            exact reSub_cons_some shrinks_matchB hmB2
          calc subB (subA (c :: cs))
              = subB (w ++ subA rest) := by rw [hR1]
            _ = expandB cap ++ subB (subA rest) := hR2
            _ = expandB cap ++ subA (subB rest) := by
                rw [ih rest (le_trans hrl hlcs)]
            _ = subA (subB (c :: cs)) := by rw [hL1, hL2]
        | none =>
          have hA2 : matchA (c :: subB cs) = none := matchA_none_preserved hA
          have hB2 : matchB (c :: subA cs) = none := matchB_none_preserved hB
          have hL1 : subA (c :: cs) = c :: subA cs := reSub_cons_none hA
          have hL2 : subB (c :: subA cs) = c :: subB (subA cs) := reSub_cons_none hB2
          have hR1 : subB (c :: cs) = c :: subB cs := reSub_cons_none hB
          have hR2 : subA (c :: subB cs) = c :: subA (subB cs) := reSub_cons_none hA2
          rw [hL1, hL2, hR1, hR2, ih cs hlcs]

theorem allPos_expandA_B {cap : List Char} (hcw : allWS cap = true) (hcne : cap ≠ []) :
    AllPos matchB (expandA cap) := by
  intro v hv
  cases hve : v with
  | nil => rfl
  | cons d ds =>
    rw [← hve]
    have h2 := expandA_deadB hcw hcne v hv (by rw [hve]; simp) []
    rwa [List.append_nil] at h2

theorem allPos_expandB_A {cap : List Char} (hcw : allWS cap = true) (hcne : cap ≠ []) :
    AllPos matchA (expandB cap) := by
  intro v hv
  cases hve : v with
  | nil => rfl
  | cons d ds =>
    rw [← hve]
    have h2 := expandB_deadA hcw hcne v hv (by rw [hve]; simp) []
    rwa [List.append_nil] at h2

/-- C7: Substitution rules A and B are independent: for every input string,
applying rule A's substitution (`subA`, the first `re.sub` of `fix_test_file`)
and then rule B's (`subB`, the second `re.sub`) yields the same result as
applying them in the opposite order; and neither rule's replacement text
creates a match for the other rule's pattern: for every whitespace capture
`cap` that rule A or B can produce (non-empty, all whitespace), the emitted
replacement block contains no occurrence of the other rule's pattern at any
position. -/
theorem c7_rules_independent :
    (∀ s : List Char, subB (subA s) = subA (subB s)) ∧
    (∀ cap : List Char, allWS cap = true → cap ≠ [] →
      noMatchAll matchB (expandA cap) = true ∧
      noMatchAll matchA (expandB cap) = true) := by
  constructor
  · intro s
    exact comm_aux s.length s (le_refl _)
  · intro cap hcw hcne
    exact ⟨noMatchAll_of_allPos (allPos_expandA_B hcw hcne),
      noMatchAll_of_allPos (allPos_expandB_A hcw hcne)⟩

/-- Witness for C7 at concrete inputs: the two substitution orders agree on
`sampleA` (which contains a rule-A occurrence), and the replacement block for
the one-space capture contains no match of the other rule. -/
theorem c7_witness :
    subB (subA sampleA) = subA (subB sampleA) ∧
    (noMatchAll matchB (expandA [' ']) = true ∧
      noMatchAll matchA (expandB [' ']) = true) :=
  ⟨c7_rules_independent.1 sampleA,
    c7_rules_independent.2 [' '] (by decide) (by decide)⟩

end SzFix
